import Mathlib

/-!
# Verification of the hidden Markov model container `HMM`

Source: `src/fastlib2/contrib/niche/hshmm/hmm.h`.

Conventions of the embedding.

* `double` values are rationals (`ℚ`).  The operations are embedded in exact
  arithmetic (`RandomlyInitialize`, `ComputeCumulativePTransition`, ...), and
  those that fill the tables the draws scan a second time with every
  arithmetic result passed through a rounding function `rnd`
  (`RandomlyInitializeRounded`, `ComputeCumulativePTransitionRounded`,
  `ComputeStateProbabilitiesRounded`); with `rnd = id` the two agree.
  `roundDouble` is the rounding of IEEE 754 binary64: to the nearest value,
  ties to even, each operation rounded on its own.  A statement about the
  exact operations is a statement of exact arithmetic.  Reads, writes and
  the comparison `rand_num > x` of the draws involve no rounding.
* `int` values are `Int`; loop counters, which start at `0` or `1` and only
  grow, are `Nat`.  The only arithmetic the class does on an `int` is `i + 1`
  and `t - 1` on a loop counter with `i < n_states_` and `1 ≤ t`, so no
  operation can overflow and `Nat` subtraction agrees with the source.
* The dense containers `Vector`, `Matrix` and `ArrayList` of the numeric
  library are not part of the sources.  They are represented by their
  allocated sizes together with an entry function.  `get`/`set` are the
  element accessors, used by the `for` loops, whose counters are bounded by
  `n_states_` and `T_`; `get?` is the same read made partial, `none` for an
  index outside the allocated sizes, where the read has no defined value; it
  is used by the unbounded `while` scans of the two draw functions, which
  check no index themselves.  `WF` states that the allocated sizes are the
  ones `Init` gives.
* A `for (int i = lo; i < hi; i++)` loop is `forLoop lo hi body`, folding the
  body over `lo, lo+1, ..., hi-1` with the mutated state passed along.
* `drand48()` is an input: the draw functions take the drawn number `u`.
* A draw is given three times: `DrawState` is the state it returns,
  `DrawStateReads` the rows of the table it reads, and `DrawStateCall` the
  member function with the object passed through; likewise for
  `DrawStateGivenLastState`.
-/

namespace HSHMM

/-! ## Containers of the numeric library -/

/-- Modelled from the spec: the dense vector type `Vector` (its declaration is
not in the sources): an ordered sequence of reals of a fixed length. -/
@[ext]
structure Vector where
  length : Nat
  elem : Nat → ℚ

/-- Modelled from the spec: the dense matrix type `Matrix` (its declaration is
not in the sources): an `n_rows × n_cols` table of reals, addressed
`(row, column)`. -/
@[ext]
structure Matrix where
  n_rows : Nat
  n_cols : Nat
  elem : Nat → Nat → ℚ

/-- Modelled from the spec: the container `ArrayList` (its declaration is not in
the sources): an ordered sequence of a fixed size. -/
@[ext]
structure ArrayList (D : Type) where
  size : Nat
  elem : Nat → D

/-- Modelled from the spec: `Vector::Init(n)` allocates `n` entries, zero-filled. -/
def Vector.Init (n : Int) : Vector := ⟨n.toNat, fun _ => 0⟩

/-- Read of `v[i]`. -/
def Vector.get (v : Vector) (i : Nat) : ℚ := v.elem i

/-- Write `v[i] = x`. -/
def Vector.set (v : Vector) (i : Nat) (x : ℚ) : Vector :=
  { v with elem := fun k => if k = i then x else v.elem k }

/-- Modelled from the spec: `Matrix::Init(r, c)` allocates an `r × c` table,
zero-filled. -/
def Matrix.Init (r c : Int) : Matrix := ⟨r.toNat, c.toNat, fun _ _ => 0⟩

/-- Read `m.get(r, c)`. -/
def Matrix.get (m : Matrix) (r c : Nat) : ℚ := m.elem r c

/-- Write `m.set(r, c, x)`. -/
def Matrix.set (m : Matrix) (r c : Nat) (x : ℚ) : Matrix :=
  { m with elem := fun r' c' => if r' = r ∧ c' = c then x else m.elem r' c' }

/-- The read `m.get(r, c)` made partial: `none` when `(r, c)` lies outside the
allocated table, where the read has no defined value. -/
def Matrix.get? (m : Matrix) (r c : Int) : Option ℚ :=
  if 0 ≤ r ∧ r < (m.n_rows : Int) ∧ 0 ≤ c ∧ c < (m.n_cols : Int) then
    some (m.elem r.toNat c.toNat)
  else none

/-- Interface of the emission distribution `Distribution` (`distribution.h` is
not part of the sources): a default-constructed instance, `Init(n_dims)` and
`RandomlyInitialize()`. -/
structure DistributionOps (D : Type) where
  fresh : D
  Init : D → Int → D
  RandomlyInitialize : D → D

/-- Modelled from the spec: `ArrayList::Init(n)` allocates `n` default-constructed
elements. -/
def ArrayList.Init {D : Type} (ops : DistributionOps D) (n : Int) : ArrayList D :=
  ⟨n.toNat, fun _ => ops.fresh⟩

/-- In-place update of element `i` by `f`, as in `a[i].f()`. -/
def ArrayList.modify {D : Type} (a : ArrayList D) (i : Nat) (f : D → D) : ArrayList D :=
  { a with elem := fun k => if k = i then f (a.elem k) else a.elem k }

/-! ## Loops -/

/-- The loop `for (int i = lo; i < hi; i++) body`, with the state it mutates
passed through. -/
def forLoop {σ : Type} (lo hi : Nat) (body : Nat → σ → σ) (s : σ) : σ :=
  (List.range' lo (hi - lo)).foldl (fun s i => body i s) s

/-! ## The class `HMM` -/

/-- The private data members of `class HMM`, in the order of the source. -/
@[ext]
structure HMM (D : Type) where
  n_states_ : Int
  n_dims_ : Int
  T_ : Int
  p_initial_ : Vector
  p_transition_ : Matrix
  state_distributions_ : ArrayList D
  state_probabilities_ : Matrix
  cumulative_p_transition_ : Matrix
  state_cumulative_probabilities_ : Matrix

variable {D : Type}

/-- Embedding of `HMM::Init` (hmm.h lines 32-50). -/
def Init (ops : DistributionOps D) (n_states_in n_dims_in T_in : Int) : HMM D :=
  let n_states_ := n_states_in
  let n_dims_ := n_dims_in
  let T_ := T_in
  let p_initial_ := Vector.Init n_states_
  let p_transition_ := Matrix.Init n_states_ n_states_
  let state_distributions_ := ArrayList.Init ops n_states_
  let state_distributions_ :=
    forLoop 0 n_states_.toNat
      (fun i sd => sd.modify i (fun d => ops.Init d n_dims_in)) state_distributions_
  let state_probabilities_ := Matrix.Init n_states_ T_
  let state_cumulative_probabilities_ := Matrix.Init n_states_ T_
  let cumulative_p_transition_ := Matrix.Init n_states_ n_states_
  { n_states_ := n_states_, n_dims_ := n_dims_, T_ := T_,
    p_initial_ := p_initial_, p_transition_ := p_transition_,
    state_distributions_ := state_distributions_,
    state_probabilities_ := state_probabilities_,
    cumulative_p_transition_ := cumulative_p_transition_,
    state_cumulative_probabilities_ := state_cumulative_probabilities_ }

/-- Embedding of `HMM::RandomlyInitialize` (hmm.h lines 52-64). -/
def RandomlyInitialize (ops : DistributionOps D) (h : HMM D) : HMM D :=
  let uniform : ℚ := (1 : ℚ) / (h.n_states_ : ℚ)
  forLoop 0 h.n_states_.toNat (fun i h =>
    let h := { h with p_initial_ := h.p_initial_.set i uniform }
    let h := forLoop 0 h.n_states_.toNat (fun j h =>
      { h with p_transition_ := h.p_transition_.set j i uniform }) h
    { h with state_distributions_ :=
        h.state_distributions_.modify i ops.RandomlyInitialize }) h

/-- Embedding of `HMM::ComputeCumulativePTransition` (hmm.h lines 110-119).  The
inner loop carries the local `cumsum` next to the object. -/
def ComputeCumulativePTransition (h : HMM D) : HMM D :=
  forLoop 0 h.n_states_.toNat (fun i h =>
    let cumsum : ℚ := 0
    (forLoop 0 h.n_states_.toNat (fun j (s : HMM D × ℚ) =>
      let cumsum := s.2 + s.1.p_transition_.get i j
      ({ s.1 with cumulative_p_transition_ :=
          s.1.cumulative_p_transition_.set j i cumsum }, cumsum)) (h, cumsum)).1) h

/-- Embedding of `HMM::CustomInitialize` (hmm.h lines 66-108). -/
def CustomInitialize (ops : DistributionOps D) (h : HMM D) : HMM D :=
  -- set initial state probabilities
  let uniform : ℚ := (1 : ℚ) / (h.n_states_ : ℚ)
  let sum_p_initial : ℚ := 0
  let s := forLoop 0 h.n_states_.toNat (fun i (s : HMM D × ℚ) =>
    let h := { s.1 with p_initial_ := s.1.p_initial_.set i (1 / (((i + 1 : Nat) : ℚ))) }
    (h, s.2 + h.p_initial_.get i)) (h, sum_p_initial)
  let h := s.1
  let sum_p_initial := s.2
  let h := forLoop 0 h.n_states_.toNat (fun i h =>
    { h with p_initial_ := h.p_initial_.set i (h.p_initial_.get i / sum_p_initial) }) h
  -- set state transition probabilities
  let h := forLoop 0 h.n_states_.toNat (fun j h =>
    let h := forLoop 0 h.n_states_.toNat (fun i h =>
      { h with p_transition_ := h.p_transition_.set i j uniform }) h
    { h with p_transition_ := h.p_transition_.set j j 1 }) h
  let h := forLoop 0 h.n_states_.toNat (fun i h =>
    let sum : ℚ := forLoop 0 h.n_states_.toNat (fun j sum =>
      sum + h.p_transition_.get i j) 0
    forLoop 0 h.n_states_.toNat (fun j h =>
      { h with p_transition_ :=
          h.p_transition_.set i j (h.p_transition_.get i j / sum) }) h) h
  -- set state distributions
  let h := forLoop 0 h.n_states_.toNat (fun i h =>
    { h with state_distributions_ :=
        h.state_distributions_.modify i ops.RandomlyInitialize }) h
  ComputeCumulativePTransition h

/-- Embedding of `HMM::ComputeStateProbabilities` (hmm.h lines 173-200). -/
def ComputeStateProbabilities (h : HMM D) : HMM D :=
  -- base case
  let h := forLoop 0 h.n_states_.toNat (fun j h =>
    { h with state_probabilities_ :=
        h.state_probabilities_.set j 0 (h.p_initial_.get j) }) h
  -- recursive step
  let h := forLoop 1 h.T_.toNat (fun t h =>
    forLoop 0 h.n_states_.toNat (fun j h =>
      let sum : ℚ := forLoop 0 h.n_states_.toNat (fun i sum =>
        sum + h.state_probabilities_.get i (t - 1) * h.p_transition_.get i j) 0
      { h with state_probabilities_ := h.state_probabilities_.set j t sum }) h) h
  -- set state cumulative probabilities for efficient state draws
  forLoop 0 h.T_.toNat (fun t h =>
    let cumsum : ℚ := 0
    (forLoop 0 h.n_states_.toNat (fun i (s : HMM D × ℚ) =>
      let cumsum := s.2 + s.1.state_probabilities_.get i t
      ({ s.1 with state_cumulative_probabilities_ :=
          s.1.state_cumulative_probabilities_.set i t cumsum }, cumsum)) (h, cumsum)).1) h

/-- The loop `while (rand_num > m.get(i, c)) i++;` followed by `return i`, on
the column `c` of the table `m`, started at row `i`.  A read outside the table
ends the scan with `none`.  The first argument bounds the number of reads; see
`scan_fuel`: the rows of the table never need more than `n_rows + 1 - i`. -/
def scan (m : Matrix) (rand_num : ℚ) (c : Int) : Nat → Nat → Option Nat
  | 0, _ => none
  | fuel + 1, i =>
    match m.get? (i : Int) c with
    | none => none
    | some x => if rand_num > x then scan m rand_num c fuel (i + 1) else some i

/-- Embedding of `HMM::DrawState` (hmm.h lines 205-214); `rand_num` is the
value returned by `drand48()`. -/
def DrawState (h : HMM D) (rand_num : ℚ) (t : Int) : Option Nat :=
  let i := 0
  scan h.state_cumulative_probabilities_ rand_num t
    (h.state_cumulative_probabilities_.n_rows + 1) i

/-- Embedding of `HMM::DrawStateGivenLastState` (hmm.h lines 219-228);
`rand_num` is the value returned by `drand48()`. -/
def DrawStateGivenLastState (h : HMM D) (rand_num : ℚ) (i : Int) : Option Nat :=
  let j := 0
  scan h.cumulative_p_transition_ rand_num i
    (h.cumulative_p_transition_.n_rows + 1) j

/-- Sizes of the containers agree with the stored dimensions, as `Init`
allocates them. -/
structure WF (h : HMM D) : Prop where
  p_initial_len : (h.p_initial_.length : Int) = h.n_states_
  p_transition_rows : (h.p_transition_.n_rows : Int) = h.n_states_
  p_transition_cols : (h.p_transition_.n_cols : Int) = h.n_states_
  probs_rows : (h.state_probabilities_.n_rows : Int) = h.n_states_
  probs_cols : (h.state_probabilities_.n_cols : Int) = h.T_
  cum_rows : (h.state_cumulative_probabilities_.n_rows : Int) = h.n_states_
  cum_cols : (h.state_cumulative_probabilities_.n_cols : Int) = h.T_
  ctrans_rows : (h.cumulative_p_transition_.n_rows : Int) = h.n_states_
  ctrans_cols : (h.cumulative_p_transition_.n_cols : Int) = h.n_states_

/-- The model with trivial emission distributions, for concrete evaluations. -/
def unitOps : DistributionOps Unit := ⟨(), fun _ _ => (), fun _ => ()⟩

/-! ## Closed forms of the loops -/

/-- Closed form of the state after `k` iterations of the outer loop of
`RandomlyInitialize`, `u` being the value of the local `uniform`. -/
def afterRandomlyInitialize (ops : DistributionOps D) (h : HMM D) (u : ℚ) (k : Nat) : HMM D :=
  { h with
    p_initial_ := ⟨h.p_initial_.length,
      fun x => if x < k then u else h.p_initial_.elem x⟩
    p_transition_ := ⟨h.p_transition_.n_rows, h.p_transition_.n_cols,
      fun r c => if r < h.n_states_.toNat ∧ c < k then u else h.p_transition_.elem r c⟩
    state_distributions_ := ⟨h.state_distributions_.size,
      fun x => if x < k then ops.RandomlyInitialize (h.state_distributions_.elem x)
        else h.state_distributions_.elem x⟩ }

/-- Closed form of the state after `k` iterations of the outer loop of
`ComputeCumulativePTransition`. -/
def afterCumulativePTransition (h : HMM D) (k : Nat) : HMM D :=
  { h with
    cumulative_p_transition_ := ⟨h.cumulative_p_transition_.n_rows,
      h.cumulative_p_transition_.n_cols,
      fun r c => if r < h.n_states_.toNat ∧ c < k then
          ∑ x in Finset.range (r + 1), h.p_transition_.elem c x
        else h.cumulative_p_transition_.elem r c⟩ }

/-- The marginal state distribution as the spec writes it: at time `0` the
initial distribution, at time `t + 1` the distribution of time `t` multiplied
by the transition matrix (`marginal h t j` is the entry of state `j`). -/
def marginal (h : HMM D) : Nat → Nat → ℚ
  | 0 => fun j => h.p_initial_.elem j
  | t + 1 => fun j =>
    ∑ i in Finset.range h.n_states_.toNat, marginal h t i * h.p_transition_.elem i j

/-- Closed form of `state_probabilities_` once the base case has run and the
recursive step has reached `t = k`. -/
def probabilitiesUpTo (h : HMM D) (k : Nat) : Matrix :=
  ⟨h.state_probabilities_.n_rows, h.state_probabilities_.n_cols,
    fun r c => if r < h.n_states_.toNat ∧ (c = 0 ∨ c < k) then marginal h c r
      else h.state_probabilities_.elem r c⟩

/-- Closed form of the state after `ComputeStateProbabilities`, the third loop
having completed `k` iterations. -/
def afterComputeStateProbabilities (h : HMM D) (k : Nat) : HMM D :=
  { h with
    state_probabilities_ := probabilitiesUpTo h h.T_.toNat
    state_cumulative_probabilities_ := ⟨h.state_cumulative_probabilities_.n_rows,
      h.state_cumulative_probabilities_.n_cols,
      fun r c => if r < h.n_states_.toNat ∧ c < k then
          ∑ x in Finset.range (r + 1), (probabilitiesUpTo h h.T_.toNat).elem x c
        else h.state_cumulative_probabilities_.elem r c⟩ }

/-- The transition weights of `CustomInitialize` before the rows are divided by
their sums: `1` on the diagonal, `uniform` elsewhere. -/
def biasedWeight (u : ℚ) (r c : Nat) : ℚ := if r = c then 1 else u

/-- Closed form of `p_initial_` after `CustomInitialize`. -/
def customInitial (h : HMM D) : Vector :=
  ⟨h.p_initial_.length,
    fun x => if x < h.n_states_.toNat then
        1 / (((x + 1 : Nat) : ℚ)) /
          ∑ k in Finset.range h.n_states_.toNat, 1 / (((k + 1 : Nat) : ℚ))
      else h.p_initial_.elem x⟩

/-- Closed form of `p_transition_` after `CustomInitialize`. -/
def customTransition (h : HMM D) : Matrix :=
  ⟨h.p_transition_.n_rows, h.p_transition_.n_cols,
    fun r c => if r < h.n_states_.toNat ∧ c < h.n_states_.toNat then
        biasedWeight (1 / (h.n_states_ : ℚ)) r c /
          ∑ x in Finset.range h.n_states_.toNat, biasedWeight (1 / (h.n_states_ : ℚ)) r x
      else h.p_transition_.elem r c⟩

/-- Closed form of the state after `CustomInitialize`. -/
def afterCustomInitialize (ops : DistributionOps D) (h : HMM D) : HMM D :=
  afterCumulativePTransition
    { h with
      p_initial_ := customInitial h
      p_transition_ := customTransition h
      state_distributions_ := ⟨h.state_distributions_.size,
        fun x => if x < h.n_states_.toNat then
            ops.RandomlyInitialize (h.state_distributions_.elem x)
          else h.state_distributions_.elem x⟩ }
    h.n_states_.toNat

/-! ## Concrete models -/

/-- A two-state model with horizon three, written out field by field: initial
distribution `[1/4, 3/4]`, transition rows `[2/3, 1/3]` and `[1/3, 2/3]`, derived
tables not yet computed. -/
def chainModel : HMM Unit :=
  { n_states_ := 2, n_dims_ := 1, T_ := 3,
    p_initial_ := ⟨2, fun i => if i = 0 then 1 / 4 else 3 / 4⟩,
    p_transition_ := ⟨2, 2, fun i j => if i = j then 2 / 3 else 1 / 3⟩,
    state_distributions_ := ⟨2, fun _ => ()⟩,
    state_probabilities_ := ⟨2, 3, fun _ _ => 0⟩,
    cumulative_p_transition_ := ⟨2, 2, fun _ _ => 0⟩,
    state_cumulative_probabilities_ := ⟨2, 3, fun _ _ => 0⟩ }

/-- The model of the sampling scenario: three states, horizon one, initial
distribution `[0.2, 0.3, 0.5]`, with `ComputeStateProbabilities` run. -/
def sampleModel : HMM Unit :=
  ComputeStateProbabilities
    { Init unitOps 3 1 1 with
      p_initial_ := ⟨3, fun i => if i = 0 then 1 / 5 else if i = 1 then 3 / 10 else 1 / 2⟩ }

/-- The uniform two-state model before its cumulative transition table is
computed: `Init(2, 1, 1)` followed by `RandomlyInitialize`. -/
def uniformBase : HMM Unit := RandomlyInitialize unitOps (Init unitOps 2 1 1)

/-- The uniform two-state model with its cumulative transition table computed. -/
def uniformSampler : HMM Unit := ComputeCumulativePTransition uniformBase

/-- The three-state model of the biased scenario: `Init(3, 1, 2)`. -/
def threeStates : HMM Unit := Init unitOps 3 1 2

/-- The scenario `stateCount = 2, dimCount = 1, horizon = 3`: `Init(2, 1, 3)`. -/
def twoStates : HMM Unit := Init unitOps 2 1 3

/-- A value `x` is `d` to three decimals: it rounds to `d`, that is, it lies
within half a unit of the third decimal place of `d`. -/
def toThreeDecimals (x d : ℚ) : Prop := |x - d| ≤ 1 / 2000

/-! ## The reads of a draw -/

/-- The rows of column `c` that the loop `while (rand_num > m.get(i, c)) i++;`
reads, in the order it reads them, started at row `i`: the trace of `scan`.  A
read outside the table is the last one. -/
def scanReads (m : Matrix) (rand_num : ℚ) (c : Int) : Nat → Nat → List Nat
  | 0, _ => []
  | fuel + 1, i =>
    match m.get? (i : Int) c with
    | none => [i]
    | some x => if rand_num > x then i :: scanReads m rand_num c fuel (i + 1) else [i]

/-- The rows of column `t` of `state_cumulative_probabilities_` that
`DrawState(t)` reads. -/
def DrawStateReads (h : HMM D) (rand_num : ℚ) (t : Int) : List Nat :=
  scanReads h.state_cumulative_probabilities_ rand_num t
    (h.state_cumulative_probabilities_.n_rows + 1) 0

/-- The rows of column `i` of `cumulative_p_transition_` that
`DrawStateGivenLastState(i)` reads. -/
def DrawStateGivenLastStateReads (h : HMM D) (rand_num : ℚ) (i : Int) : List Nat :=
  scanReads h.cumulative_p_transition_ rand_num i
    (h.cumulative_p_transition_.n_rows + 1) 0

/-! ## The guards the spec asks for -/

/-- The reads of `DrawState(t)` as the spec words the call (sections 4.6 and
7): an index outside `[0, T_)` is rejected before any table is consulted, so
nothing is read; a valid index is scanned. -/
def DrawStateSpecReads (h : HMM D) (rand_num : ℚ) (t : Int) : List Nat :=
  if 0 ≤ t ∧ t < h.T_ then DrawStateReads h rand_num t else []

/-- The reads of `DrawStateGivenLastState(i)` as the spec words the call
(sections 4.6 and 7): an index outside `[0, n_states_)` is rejected before any
table is consulted, so nothing is read; a valid index is scanned. -/
def DrawStateGivenLastStateSpecReads (h : HMM D) (rand_num : ℚ) (i : Int) : List Nat :=
  if 0 ≤ i ∧ i < h.n_states_ then DrawStateGivenLastStateReads h rand_num i else []

/-- Construction as the spec words it (section 4.1): it fails, building no
model, when one of the three sizes is not positive, and otherwise builds the
model that `Init` builds. -/
def InitSpec (ops : DistributionOps D) (n_states_in n_dims_in T_in : Int) : Option (HMM D) :=
  if n_states_in ≤ 0 ∨ n_dims_in ≤ 0 ∨ T_in ≤ 0 then none
  else some (Init ops n_states_in n_dims_in T_in)

/-! ## The draws as member functions -/

/-- The scan of a draw function as the member function runs it: the object is
threaded through the loop next to the counter, and the table `tbl` is read
from the object in every iteration.  A returning scan gives the state it
returns and the object it leaves. -/
def scanObject (tbl : HMM D → Matrix) (rand_num : ℚ) (c : Int) :
    Nat → HMM D → Nat → Option (Nat × HMM D)
  | 0, _, _ => none
  | fuel + 1, h, i =>
    match (tbl h).get? (i : Int) c with
    | none => none
    | some x => if rand_num > x then scanObject tbl rand_num c fuel h (i + 1) else some (i, h)

/-- The call `DrawState(t)` with the object passed through
(hmm.h lines 205-214): the returned state and the object after the call. -/
def DrawStateCall (h : HMM D) (rand_num : ℚ) (t : Int) : Option (Nat × HMM D) :=
  let i := 0
  scanObject (fun h => h.state_cumulative_probabilities_) rand_num t
    (h.state_cumulative_probabilities_.n_rows + 1) h i

/-- The call `DrawStateGivenLastState(i)` with the object passed through
(hmm.h lines 219-228): the returned state and the object after the call. -/
def DrawStateGivenLastStateCall (h : HMM D) (rand_num : ℚ) (i : Int) :
    Option (Nat × HMM D) :=
  let j := 0
  scanObject (fun h => h.cumulative_p_transition_) rand_num i
    (h.cumulative_p_transition_.n_rows + 1) h j

/-! ## Double arithmetic -/

/-- The power `2 ^ e` for an integer exponent `e`. -/
def pow2 (e : Int) : ℚ := if 0 ≤ e then (2 : ℚ) ^ e.toNat else 1 / (2 : ℚ) ^ (-e).toNat

/-- The number of halvings that bring `n` below `2`; the first argument bounds
the recursion. -/
def bitsBelow : Nat → Nat → Nat
  | 0, _ => 0
  | fuel + 1, n => if n < 2 then 0 else bitsBelow fuel (n / 2) + 1

/-- The integer part of the binary logarithm of `n`, zero for `n = 0`. -/
def floorLog2 (n : Nat) : Nat := bitsBelow n n

/-- The binary exponent of a non-zero `x`: the `e` with
`2 ^ e ≤ |x| < 2 ^ (e + 1)`.  The difference of the logarithms of numerator and
denominator is `e` or `e + 1`; the comparison tells which. -/
def binaryExponent (x : ℚ) : Int :=
  let e : Int := (floorLog2 x.num.natAbs : Int) - (floorLog2 x.den : Int)
  if pow2 e ≤ |x| then e else e - 1

/-- The integer nearest to `y`, a tie going to the even neighbour. -/
def roundHalfEven (y : ℚ) : Int :=
  let f : Int := Int.floor y
  let r : ℚ := y - f
  if r < 1 / 2 then f else if 1 / 2 < r then f + 1 else if f % 2 = 0 then f else f + 1

/-- The value of type `double` (IEEE 754 binary64) nearest to `x`, a tie going
to the value with even significand: the result the machine stores for an
arithmetic operation whose exact result is `x`.  A significand has 53 bits, so
the values near `x` are the multiples of `2 ^ (e - 52)`, `e` the binary exponent
of `x`, and of `2 ^ (-1074)` below the normal range.  Overflow to infinity is
not represented: no value of this development leaves `[0, 2]`. -/
def roundDouble (x : ℚ) : ℚ :=
  if x = 0 then 0 else
    let q : Int := max (binaryExponent x - 52) (-1074)
    (roundHalfEven (x / pow2 q) : ℚ) * pow2 q

/-- The largest value `drand48()` returns: its values are the multiples of
`2 ^ (-48)` in `[0, 1)`. -/
def largestDraw : ℚ := 1 - 1 / 2 ^ 48

/-! ## The operations in rounded arithmetic -/

/-- Embedding of `HMM::RandomlyInitialize` (hmm.h lines 52-64) with the result
of its one arithmetic operation, the division, rounded by `rnd`.  The
conversions `(double) 1` and `(double) n_states_` of an `int` are exact. -/
def RandomlyInitializeRounded (rnd : ℚ → ℚ) (ops : DistributionOps D) (h : HMM D) : HMM D :=
  let uniform : ℚ := rnd ((1 : ℚ) / (h.n_states_ : ℚ))
  forLoop 0 h.n_states_.toNat (fun i h =>
    let h := { h with p_initial_ := h.p_initial_.set i uniform }
    let h := forLoop 0 h.n_states_.toNat (fun j h =>
      { h with p_transition_ := h.p_transition_.set j i uniform }) h
    { h with state_distributions_ :=
        h.state_distributions_.modify i ops.RandomlyInitialize }) h

/-- Embedding of `HMM::ComputeCumulativePTransition` (hmm.h lines 110-119) with
the result of every addition `cumsum += ...` rounded by `rnd`. -/
def ComputeCumulativePTransitionRounded (rnd : ℚ → ℚ) (h : HMM D) : HMM D :=
  forLoop 0 h.n_states_.toNat (fun i h =>
    let cumsum : ℚ := 0
    (forLoop 0 h.n_states_.toNat (fun j (s : HMM D × ℚ) =>
      let cumsum := rnd (s.2 + s.1.p_transition_.get i j)
      ({ s.1 with cumulative_p_transition_ :=
          s.1.cumulative_p_transition_.set j i cumsum }, cumsum)) (h, cumsum)).1) h

/-- Embedding of `HMM::ComputeStateProbabilities` (hmm.h lines 173-200) with the
result of every multiplication and of every addition rounded by `rnd`, each
operation on its own. -/
def ComputeStateProbabilitiesRounded (rnd : ℚ → ℚ) (h : HMM D) : HMM D :=
  -- base case
  let h := forLoop 0 h.n_states_.toNat (fun j h =>
    { h with state_probabilities_ :=
        h.state_probabilities_.set j 0 (h.p_initial_.get j) }) h
  -- recursive step
  let h := forLoop 1 h.T_.toNat (fun t h =>
    forLoop 0 h.n_states_.toNat (fun j h =>
      let sum : ℚ := forLoop 0 h.n_states_.toNat (fun i sum =>
        rnd (sum + rnd (h.state_probabilities_.get i (t - 1) * h.p_transition_.get i j))) 0
      { h with state_probabilities_ := h.state_probabilities_.set j t sum }) h) h
  -- set state cumulative probabilities for efficient state draws
  forLoop 0 h.T_.toNat (fun t h =>
    let cumsum : ℚ := 0
    (forLoop 0 h.n_states_.toNat (fun i (s : HMM D × ℚ) =>
      let cumsum := rnd (s.2 + s.1.state_probabilities_.get i t)
      ({ s.1 with state_cumulative_probabilities_ :=
          s.1.state_cumulative_probabilities_.set i t cumsum }, cumsum)) (h, cumsum)).1) h

/-- The running sum `cumsum = 0; cumsum += f(0); cumsum += f(1); ...` after `k`
additions, each rounded by `rnd`. -/
def roundedPrefix (rnd : ℚ → ℚ) (f : Nat → ℚ) : Nat → ℚ
  | 0 => 0
  | k + 1 => rnd (roundedPrefix rnd f k + f k)

/-- Closed form of the state after `k` iterations of the outer loop of
`ComputeCumulativePTransitionRounded`. -/
def afterCumulativePTransitionRounded (rnd : ℚ → ℚ) (h : HMM D) (k : Nat) : HMM D :=
  { h with
    cumulative_p_transition_ := ⟨h.cumulative_p_transition_.n_rows,
      h.cumulative_p_transition_.n_cols,
      fun r c => if r < h.n_states_.toNat ∧ c < k then
          roundedPrefix rnd (fun x => h.p_transition_.elem c x) (r + 1)
        else h.cumulative_p_transition_.elem r c⟩ }

/-- What `ComputeStateProbabilitiesRounded` keeps of a model: every member but
the two marginal tables, and the sizes of those. -/
def sameParameters (h g : HMM D) : Prop :=
  g.n_states_ = h.n_states_ ∧ g.n_dims_ = h.n_dims_ ∧ g.T_ = h.T_ ∧
  g.p_initial_ = h.p_initial_ ∧ g.p_transition_ = h.p_transition_ ∧
  g.state_distributions_ = h.state_distributions_ ∧
  g.cumulative_p_transition_ = h.cumulative_p_transition_ ∧
  g.state_probabilities_.n_rows = h.state_probabilities_.n_rows ∧
  g.state_probabilities_.n_cols = h.state_probabilities_.n_cols ∧
  g.state_cumulative_probabilities_.n_rows = h.state_cumulative_probabilities_.n_rows ∧
  g.state_cumulative_probabilities_.n_cols = h.state_cumulative_probabilities_.n_cols

/-! ## Models in double arithmetic -/

/-- The uniform model of 154 states in double arithmetic, before its derived
tables are computed: `Init(154, 1, 1)` followed by `RandomlyInitialize`. -/
def uniformDoubleBase : HMM Unit :=
  RandomlyInitializeRounded roundDouble unitOps (Init unitOps 154 1 1)

/-- The uniform model of 154 states with `ComputeStateProbabilities` and
`ComputeCumulativePTransition` run, all in double arithmetic. -/
def uniformDouble : HMM Unit :=
  ComputeCumulativePTransitionRounded roundDouble
    (ComputeStateProbabilitiesRounded roundDouble uniformDoubleBase)

/-- The entries of the initial distribution and of every transition row of
`tailModel`: `1 - 2 ^ (-47)` for state `0`, `2 ^ (-55)` for every other state. -/
def tailEntry (k : Nat) : ℚ := if k = 0 then 1 - 1 / 2 ^ 47 else 1 / 2 ^ 55

/-- A model of 257 states and horizon one whose entries are values of type
`double` and whose initial distribution and transition rows sum to one exactly:
each is `1 - 2 ^ (-47)` followed by 256 entries `2 ^ (-55)`.  Derived tables not
yet computed. -/
def tailModel : HMM Unit :=
  { Init unitOps 257 1 1 with
    p_initial_ := ⟨257, tailEntry⟩
    p_transition_ := ⟨257, 257, fun _ c => tailEntry c⟩ }

/-- The model `tailModel` with `ComputeStateProbabilities` and
`ComputeCumulativePTransition` run in double arithmetic. -/
def tailDouble : HMM Unit :=
  ComputeCumulativePTransitionRounded roundDouble
    (ComputeStateProbabilitiesRounded roundDouble tailModel)

/-! ## Loop lemmas -/

section
variable {σ : Type}

theorem forLoop_of_le (lo hi : Nat) (body : Nat → σ → σ) (s : σ) (h : hi ≤ lo) :
    forLoop lo hi body s = s := by
  simp [forLoop, Nat.sub_eq_zero_of_le h]

theorem forLoop_succ (lo k : Nat) (body : Nat → σ → σ) (s : σ) (h : lo ≤ k) :
    forLoop lo (k + 1) body s = body k (forLoop lo k body s) := by
  unfold forLoop
  have e : k + 1 - lo = (k - lo) + 1 := by omega
  rw [e, List.range'_1_concat, List.foldl_append]
  simp only [List.foldl_cons, List.foldl_nil]
  congr 1
  omega

theorem forLoop_sum (f : Nat → ℚ) (n : Nat) (a : ℚ) :
    forLoop 0 n (fun i s => s + f i) a = a + ∑ i in Finset.range n, f i := by
  induction n with
  | zero => simp [forLoop]
  | succ k ih => rw [forLoop_succ _ _ _ _ (Nat.zero_le k), ih, Finset.sum_range_succ]; ring
end

/-! ## `RandomlyInitialize` -/

theorem setColumn_loop (h : HMM D) (c : Nat) (u : ℚ) (m : Nat) :
    forLoop 0 m (fun j h => { h with p_transition_ := h.p_transition_.set j c u }) h
      = { h with p_transition_ := ⟨h.p_transition_.n_rows, h.p_transition_.n_cols,
            fun r c' => if r < m ∧ c' = c then u else h.p_transition_.elem r c'⟩ } := by
  induction m with
  | zero => simp [forLoop]
  | succ k ih =>
    rw [forLoop_succ _ _ _ _ (Nat.zero_le k), ih]
    ext : 1 <;> try rfl
    ext r c' <;> try rfl
    simp only [Matrix.set]
    split_ifs <;> first | rfl | (exfalso; omega)

theorem RandomlyInitialize_loop (ops : DistributionOps D) (h : HMM D) (u : ℚ) (k : Nat) :
    forLoop 0 k (fun i h =>
      let h := { h with p_initial_ := h.p_initial_.set i u }
      let h := forLoop 0 h.n_states_.toNat (fun j h =>
        { h with p_transition_ := h.p_transition_.set j i u }) h
      { h with state_distributions_ :=
          h.state_distributions_.modify i ops.RandomlyInitialize }) h
      = afterRandomlyInitialize ops h u k := by
  induction k with
  | zero =>
    rw [forLoop_of_le _ _ _ _ (Nat.le_refl 0)]
    simp [afterRandomlyInitialize]
  | succ k ih =>
    rw [forLoop_succ _ _ _ _ (Nat.zero_le k), ih]
    simp only [afterRandomlyInitialize]
    rw [setColumn_loop]
    ext : 1 <;> try rfl
    · ext x <;> try rfl
      simp only [Vector.set]
      split_ifs <;> first | rfl | (exfalso; omega)
    · ext r c <;> try rfl
      simp only []
      split_ifs <;> first | rfl | (exfalso; omega)
    · ext x <;> try rfl
      simp only [ArrayList.modify]
      split_ifs <;> first | rfl | (exfalso; omega)

theorem RandomlyInitialize_eq (ops : DistributionOps D) (h : HMM D) :
    RandomlyInitialize ops h
      = afterRandomlyInitialize ops h (1 / (h.n_states_ : ℚ)) h.n_states_.toNat :=
  RandomlyInitialize_loop ops h _ _

/-! ## `ComputeCumulativePTransition` -/

theorem cumulativeRow_loop (h : HMM D) (i : Nat) (c0 : ℚ) (m : Nat) :
    forLoop 0 m (fun j (s : HMM D × ℚ) =>
      let cumsum := s.2 + s.1.p_transition_.get i j
      ({ s.1 with cumulative_p_transition_ :=
          s.1.cumulative_p_transition_.set j i cumsum }, cumsum)) (h, c0)
      = ({ h with cumulative_p_transition_ := ⟨h.cumulative_p_transition_.n_rows,
            h.cumulative_p_transition_.n_cols,
            fun r c => if r < m ∧ c = i then
                c0 + ∑ x in Finset.range (r + 1), h.p_transition_.elem i x
              else h.cumulative_p_transition_.elem r c⟩ },
          c0 + ∑ x in Finset.range m, h.p_transition_.elem i x) := by
  induction m with
  | zero => simp [forLoop]
  | succ k ih =>
    rw [forLoop_succ _ _ _ _ (Nat.zero_le k), ih]
    simp only [Matrix.get, Matrix.set, Finset.sum_range_succ, add_assoc]
    refine Prod.ext ?_ rfl
    ext : 1 <;> try rfl
    ext r c <;> try rfl
    simp only []
    split_ifs with h1 h2 h3 h4 <;>
      first
      | rfl
      | (exfalso; omega)
      | (obtain ⟨rfl, rfl⟩ := h1; simp only [Finset.sum_range_succ])

theorem ComputeCumulativePTransition_loop (h : HMM D) (k : Nat) :
    forLoop 0 k (fun i h =>
      let cumsum : ℚ := 0
      (forLoop 0 h.n_states_.toNat (fun j (s : HMM D × ℚ) =>
        let cumsum := s.2 + s.1.p_transition_.get i j
        ({ s.1 with cumulative_p_transition_ :=
            s.1.cumulative_p_transition_.set j i cumsum }, cumsum)) (h, cumsum)).1) h
      = afterCumulativePTransition h k := by
  induction k with
  | zero =>
    rw [forLoop_of_le _ _ _ _ (Nat.le_refl 0)]
    simp [afterCumulativePTransition]
  | succ k ih =>
    rw [forLoop_succ _ _ _ _ (Nat.zero_le k), ih]
    simp only [cumulativeRow_loop]
    simp only [afterCumulativePTransition]
    ext : 1 <;> try rfl
    ext r c <;> try rfl
    simp only [zero_add]
    split_ifs with h1 h2 <;>
      first | rfl | (exfalso; omega) | (rw [h1.2])

theorem ComputeCumulativePTransition_eq (h : HMM D) :
    ComputeCumulativePTransition h = afterCumulativePTransition h h.n_states_.toNat :=
  ComputeCumulativePTransition_loop h _

/-! ## `ComputeStateProbabilities` -/

theorem baseCase_loop (h : HMM D) (m : Nat) :
    forLoop 0 m (fun j h =>
      { h with state_probabilities_ :=
          h.state_probabilities_.set j 0 (h.p_initial_.get j) }) h
      = { h with state_probabilities_ := ⟨h.state_probabilities_.n_rows,
            h.state_probabilities_.n_cols,
            fun r c => if r < m ∧ c = 0 then h.p_initial_.elem r
              else h.state_probabilities_.elem r c⟩ } := by
  induction m with
  | zero => simp [forLoop]
  | succ k ih =>
    rw [forLoop_succ _ _ _ _ (Nat.zero_le k), ih]
    ext : 1 <;> try rfl
    ext r c <;> try rfl
    simp only [Matrix.set, Vector.get]
    split_ifs with h1 <;> first | rfl | (exfalso; omega) | (rw [h1.1])

theorem recursiveStep_inner (s : HMM D) (t : Nat) (ht : 1 ≤ t) (m : Nat) :
    forLoop 0 m (fun j h =>
      let sum : ℚ := forLoop 0 h.n_states_.toNat (fun i sum =>
        sum + h.state_probabilities_.get i (t - 1) * h.p_transition_.get i j) 0
      { h with state_probabilities_ := h.state_probabilities_.set j t sum }) s
      = { s with state_probabilities_ := ⟨s.state_probabilities_.n_rows,
            s.state_probabilities_.n_cols,
            fun r c => if r < m ∧ c = t then
                ∑ i in Finset.range s.n_states_.toNat,
                  s.state_probabilities_.elem i (t - 1) * s.p_transition_.elem i r
              else s.state_probabilities_.elem r c⟩ } := by
  have hne : ¬ (t - 1 = t) := by omega
  induction m with
  | zero => simp [forLoop]
  | succ k ih =>
    rw [forLoop_succ _ _ _ _ (Nat.zero_le k), ih]
    ext : 1 <;> try rfl
    ext r c <;> try rfl
    simp only [Matrix.set, Matrix.get, forLoop_sum, zero_add, hne, and_false, if_false]
    split_ifs with h1 <;> first | rfl | (exfalso; omega) | (rw [h1.1])

theorem probabilitiesUpTo_zero (h : HMM D) :
    probabilitiesUpTo h 0 = probabilitiesUpTo h 1 := by
  unfold probabilitiesUpTo
  ext r c <;> try rfl
  simp only []
  split_ifs <;> first | rfl | (exfalso; omega)

theorem recursiveStep_loop (h : HMM D) (k : Nat) :
    forLoop 1 (k + 1) (fun t h =>
      forLoop 0 h.n_states_.toNat (fun j h =>
        let sum : ℚ := forLoop 0 h.n_states_.toNat (fun i sum =>
          sum + h.state_probabilities_.get i (t - 1) * h.p_transition_.get i j) 0
        { h with state_probabilities_ := h.state_probabilities_.set j t sum }) h)
      { h with state_probabilities_ := probabilitiesUpTo h 1 }
      = { h with state_probabilities_ := probabilitiesUpTo h (k + 1) } := by
  induction k with
  | zero => rw [forLoop_of_le _ _ _ _ (Nat.le_refl 1)]
  | succ k ih =>
    rw [forLoop_succ _ _ _ _ (Nat.le_add_left 1 k), ih]
    simp only []
    rw [recursiveStep_inner _ _ (Nat.le_add_left 1 k)]
    ext : 1 <;> try rfl
    ext r c <;> try rfl
    simp only [probabilitiesUpTo, Nat.add_sub_cancel]
    split_ifs with h1 h2 h3 <;> first | rfl | (exfalso; omega) | skip
    · rw [h1.2, marginal]
      refine Finset.sum_congr rfl (fun i hi => ?_)
      rw [Finset.mem_range] at hi
      rw [if_pos ⟨hi, by omega⟩]

theorem cumulativeColumn_loop (h : HMM D) (t : Nat) (c0 : ℚ) (m : Nat) :
    forLoop 0 m (fun i (s : HMM D × ℚ) =>
      let cumsum := s.2 + s.1.state_probabilities_.get i t
      ({ s.1 with state_cumulative_probabilities_ :=
          s.1.state_cumulative_probabilities_.set i t cumsum }, cumsum)) (h, c0)
      = ({ h with state_cumulative_probabilities_ :=
            ⟨h.state_cumulative_probabilities_.n_rows,
            h.state_cumulative_probabilities_.n_cols,
            fun r c => if r < m ∧ c = t then
                c0 + ∑ x in Finset.range (r + 1), h.state_probabilities_.elem x t
              else h.state_cumulative_probabilities_.elem r c⟩ },
          c0 + ∑ x in Finset.range m, h.state_probabilities_.elem x t) := by
  induction m with
  | zero => simp [forLoop]
  | succ k ih =>
    rw [forLoop_succ _ _ _ _ (Nat.zero_le k), ih]
    simp only [Matrix.get, Matrix.set, Finset.sum_range_succ, add_assoc]
    refine Prod.ext ?_ rfl
    ext : 1 <;> try rfl
    ext r c <;> try rfl
    simp only []
    split_ifs with h1 h2 h3 h4 <;>
      first
      | rfl
      | (exfalso; omega)
      | (obtain ⟨rfl, rfl⟩ := h1; simp only [Finset.sum_range_succ])

theorem cumulative_loop (h : HMM D) (k : Nat) :
    forLoop 0 k (fun t h =>
      let cumsum : ℚ := 0
      (forLoop 0 h.n_states_.toNat (fun i (s : HMM D × ℚ) =>
        let cumsum := s.2 + s.1.state_probabilities_.get i t
        ({ s.1 with state_cumulative_probabilities_ :=
            s.1.state_cumulative_probabilities_.set i t cumsum }, cumsum)) (h, cumsum)).1)
      { h with state_probabilities_ := probabilitiesUpTo h h.T_.toNat }
      = afterComputeStateProbabilities h k := by
  induction k with
  | zero =>
    rw [forLoop_of_le _ _ _ _ (Nat.le_refl 0)]
    simp [afterComputeStateProbabilities]
  | succ k ih =>
    rw [forLoop_succ _ _ _ _ (Nat.zero_le k), ih]
    simp only [cumulativeColumn_loop]
    simp only [afterComputeStateProbabilities]
    ext : 1 <;> try rfl
    ext r c <;> try rfl
    simp only [zero_add]
    split_ifs with h1 h2 <;>
      first | rfl | (exfalso; omega) | (rw [h1.2])

theorem ComputeStateProbabilities_eq (h : HMM D) :
    ComputeStateProbabilities h = afterComputeStateProbabilities h h.T_.toNat := by
  unfold ComputeStateProbabilities
  simp only []
  rw [baseCase_loop]
  have e1 : ({ h with state_probabilities_ := ⟨h.state_probabilities_.n_rows,
            h.state_probabilities_.n_cols,
            fun r c => if r < h.n_states_.toNat ∧ c = 0 then h.p_initial_.elem r
              else h.state_probabilities_.elem r c⟩ } : HMM D)
      = { h with state_probabilities_ := probabilitiesUpTo h 1 } := by
    ext : 1 <;> try rfl
    ext r c <;> try rfl
    simp only [probabilitiesUpTo]
    split_ifs with h1 h2 <;> first | rfl | (exfalso; omega) | (rw [h1.2]; rfl)
  rw [e1]
  simp only []
  have e2 : forLoop 1 h.T_.toNat (fun t h =>
      forLoop 0 h.n_states_.toNat (fun j h =>
        let sum : ℚ := forLoop 0 h.n_states_.toNat (fun i sum =>
          sum + h.state_probabilities_.get i (t - 1) * h.p_transition_.get i j) 0
        { h with state_probabilities_ := h.state_probabilities_.set j t sum }) h)
      { h with state_probabilities_ := probabilitiesUpTo h 1 }
      = { h with state_probabilities_ := probabilitiesUpTo h h.T_.toNat } := by
    cases hT : h.T_.toNat with
    | zero =>
      rw [forLoop_of_le _ _ _ _ (Nat.zero_le 1), probabilitiesUpTo_zero]
    | succ k => exact recursiveStep_loop h k
  rw [e2]
  exact cumulative_loop h _

/-! ## `CustomInitialize` -/

theorem initialWeights_loop (h : HMM D) (c0 : ℚ) (m : Nat) :
    forLoop 0 m (fun i (s : HMM D × ℚ) =>
      let h := { s.1 with p_initial_ := s.1.p_initial_.set i (1 / (((i + 1 : Nat) : ℚ))) }
      (h, s.2 + h.p_initial_.get i)) (h, c0)
      = ({ h with p_initial_ := ⟨h.p_initial_.length,
            fun x => if x < m then 1 / (((x + 1 : Nat) : ℚ)) else h.p_initial_.elem x⟩ },
          c0 + ∑ x in Finset.range m, 1 / (((x + 1 : Nat) : ℚ))) := by
  induction m with
  | zero => simp [forLoop]
  | succ k ih =>
    rw [forLoop_succ _ _ _ _ (Nat.zero_le k), ih]
    simp only [Vector.get, Vector.set, Finset.sum_range_succ, add_assoc, if_true]
    refine Prod.ext ?_ rfl
    ext : 1 <;> try rfl
    ext x <;> try rfl
    simp only []
    split_ifs with h1 <;> first | rfl | (exfalso; omega) | (rw [h1])

theorem normalizeInitial_loop (h : HMM D) (S : ℚ) (m : Nat) :
    forLoop 0 m (fun i h =>
      { h with p_initial_ := h.p_initial_.set i (h.p_initial_.get i / S) }) h
      = { h with p_initial_ := ⟨h.p_initial_.length,
            fun x => if x < m then h.p_initial_.elem x / S else h.p_initial_.elem x⟩ } := by
  induction m with
  | zero => simp [forLoop]
  | succ k ih =>
    rw [forLoop_succ _ _ _ _ (Nat.zero_le k), ih]
    ext : 1 <;> try rfl
    ext x <;> try rfl
    simp only [Vector.get, Vector.set, lt_irrefl, if_false]
    split_ifs with h1 <;> first | rfl | (exfalso; omega) | (rw [h1])

theorem biasedFill_loop (h : HMM D) (u : ℚ) (k : Nat) :
    forLoop 0 k (fun j h =>
      let h := forLoop 0 h.n_states_.toNat (fun i h =>
        { h with p_transition_ := h.p_transition_.set i j u }) h
      { h with p_transition_ := h.p_transition_.set j j 1 }) h
      = { h with p_transition_ := ⟨h.p_transition_.n_rows, h.p_transition_.n_cols,
            fun r c => if c < k ∧ r = c then 1
              else if c < k ∧ r < h.n_states_.toNat then u
              else h.p_transition_.elem r c⟩ } := by
  induction k with
  | zero =>
    rw [forLoop_of_le _ _ _ _ (Nat.le_refl 0)]
    simp
  | succ k ih =>
    rw [forLoop_succ _ _ _ _ (Nat.zero_le k), ih]
    simp only []
    rw [setColumn_loop]
    ext : 1 <;> try rfl
    ext r c <;> try rfl
    simp only [Matrix.set]
    split_ifs <;> first | rfl | (exfalso; omega)

theorem normalizeRow_inner (s : HMM D) (i : Nat) (S : ℚ) (m : Nat) :
    forLoop 0 m (fun j h =>
      { h with p_transition_ :=
          h.p_transition_.set i j (h.p_transition_.get i j / S) }) s
      = { s with p_transition_ := ⟨s.p_transition_.n_rows, s.p_transition_.n_cols,
            fun r c => if r = i ∧ c < m then s.p_transition_.elem r c / S
              else s.p_transition_.elem r c⟩ } := by
  induction m with
  | zero => simp [forLoop]
  | succ k ih =>
    rw [forLoop_succ _ _ _ _ (Nat.zero_le k), ih]
    ext : 1 <;> try rfl
    ext r c <;> try rfl
    simp only [Matrix.get, Matrix.set, lt_irrefl, and_false, if_false]
    split_ifs with h1 <;> first | rfl | (exfalso; omega) | (rw [h1.1, h1.2])

theorem normalizeRows_loop (h : HMM D) (k : Nat) :
    forLoop 0 k (fun i h =>
      let sum : ℚ := forLoop 0 h.n_states_.toNat (fun j sum =>
        sum + h.p_transition_.get i j) 0
      forLoop 0 h.n_states_.toNat (fun j h =>
        { h with p_transition_ :=
            h.p_transition_.set i j (h.p_transition_.get i j / sum) }) h) h
      = { h with p_transition_ := ⟨h.p_transition_.n_rows, h.p_transition_.n_cols,
            fun r c => if r < k ∧ c < h.n_states_.toNat then
                h.p_transition_.elem r c /
                  ∑ x in Finset.range h.n_states_.toNat, h.p_transition_.elem r x
              else h.p_transition_.elem r c⟩ } := by
  induction k with
  | zero =>
    rw [forLoop_of_le _ _ _ _ (Nat.le_refl 0)]
    simp
  | succ k ih =>
    rw [forLoop_succ _ _ _ _ (Nat.zero_le k), ih]
    simp only []
    rw [normalizeRow_inner]
    ext : 1 <;> try rfl
    ext r c <;> try rfl
    simp only [Matrix.get, forLoop_sum, zero_add, lt_irrefl, false_and, if_false]
    split_ifs with h1 <;> first | rfl | (exfalso; omega) | (rw [h1.1])

theorem randomizeDistributions_loop (ops : DistributionOps D) (h : HMM D) (m : Nat) :
    forLoop 0 m (fun i h =>
      { h with state_distributions_ :=
          h.state_distributions_.modify i ops.RandomlyInitialize }) h
      = { h with state_distributions_ := ⟨h.state_distributions_.size,
            fun x => if x < m then ops.RandomlyInitialize (h.state_distributions_.elem x)
              else h.state_distributions_.elem x⟩ } := by
  induction m with
  | zero => simp [forLoop]
  | succ k ih =>
    rw [forLoop_succ _ _ _ _ (Nat.zero_le k), ih]
    ext : 1 <;> try rfl
    ext x <;> try rfl
    simp only [ArrayList.modify, lt_irrefl, if_false]
    split_ifs with h1 <;> first | rfl | (exfalso; omega)

theorem CustomInitialize_eq (ops : DistributionOps D) (h : HMM D) :
    CustomInitialize ops h = afterCustomInitialize ops h := by
  unfold CustomInitialize
  simp only []
  rw [initialWeights_loop]
  simp only []
  rw [normalizeInitial_loop]
  simp only []
  rw [biasedFill_loop]
  simp only []
  rw [normalizeRows_loop]
  simp only []
  rw [randomizeDistributions_loop]
  simp only []
  rw [ComputeCumulativePTransition_eq]
  unfold afterCustomInitialize
  simp only []
  congr 1
  ext : 1 <;> try rfl
  · ext x <;> try rfl
    simp only [customInitial, zero_add]
    split_ifs <;> rfl
  · ext r c <;> try rfl
    simp only [customTransition, biasedWeight]
    by_cases hrc : r < h.n_states_.toNat ∧ c < h.n_states_.toNat
    · rw [if_pos hrc, if_pos hrc]
      congr 1
      · simp [hrc.1, hrc.2]
      · refine Finset.sum_congr rfl (fun x hx => ?_)
        rw [Finset.mem_range] at hx
        simp [hx, hrc.1]
    · rw [if_neg hrc, if_neg hrc]
      split_ifs <;> first | rfl | (exfalso; omega)

/-! ## Facts about the marginals -/

theorem ComputeStateProbabilities_probs (h : HMM D) (j t : Nat)
    (hj : j < h.n_states_.toNat) (ht : t = 0 ∨ t < h.T_.toNat) :
    (ComputeStateProbabilities h).state_probabilities_.get j t = marginal h t j := by
  rw [ComputeStateProbabilities_eq]
  simp only [afterComputeStateProbabilities, probabilitiesUpTo, Matrix.get]
  rw [if_pos ⟨hj, ht⟩]

theorem marginal_sum (h : HMM D)
    (hinit : ∑ i in Finset.range h.n_states_.toNat, h.p_initial_.get i = 1)
    (hrow : ∀ i, i < h.n_states_.toNat →
      ∑ j in Finset.range h.n_states_.toNat, h.p_transition_.get i j = 1) (t : Nat) :
    ∑ j in Finset.range h.n_states_.toNat, marginal h t j = 1 := by
  induction t with
  | zero => exact hinit
  | succ t ih =>
    simp only [marginal]
    rw [Finset.sum_comm]
    rw [← ih]
    refine Finset.sum_congr rfl (fun i hi => ?_)
    rw [← Finset.mul_sum]
    have := hrow i (Finset.mem_range.mp hi)
    simp only [Matrix.get] at this
    rw [this, mul_one]

theorem marginal_eq_vecMul (h : HMM D) (t : Nat) (j : Fin h.n_states_.toNat) :
    marginal h t j
      = Matrix.vecMul (fun i : Fin h.n_states_.toNat => h.p_initial_.get i)
          ((Matrix.of fun i k : Fin h.n_states_.toNat => h.p_transition_.get i k) ^ t) j := by
  induction t generalizing j with
  | zero => simp [marginal, Vector.get]
  | succ t ih =>
    rw [pow_succ, ← Matrix.vecMul_vecMul]
    simp only [marginal, Matrix.vecMul, Matrix.dotProduct, Matrix.of_apply, Matrix.get]
    rw [Finset.sum_range]
    refine Finset.sum_congr rfl (fun i _ => ?_)
    rw [ih i]
    rfl

/-- C1: if the initial distribution sums to one and every row of the transition
matrix sums to one, then after `ComputeStateProbabilities` every column
`t < T_` of `state_probabilities_` sums to one. -/
theorem C1_marginal_conservation (h : HMM D)
    (_hn : 1 ≤ h.n_states_) (_hT : 1 ≤ h.T_)
    (hinit : ∑ i in Finset.range h.n_states_.toNat, h.p_initial_.get i = 1)
    (hrow : ∀ i : Nat, (i : Int) < h.n_states_ →
      ∑ j in Finset.range h.n_states_.toNat, h.p_transition_.get i j = 1)
    (t : Nat) (ht : (t : Int) < h.T_) :
    ∑ i in Finset.range h.n_states_.toNat,
      (ComputeStateProbabilities h).state_probabilities_.get i t = 1 := by
  rw [← marginal_sum h hinit (fun i hi => hrow i (by omega)) t]
  refine Finset.sum_congr rfl (fun i hi => ?_)
  exact ComputeStateProbabilities_probs h i t (Finset.mem_range.mp hi) (Or.inr (by omega))

/-- C1 on `chainModel`: its parameters are stochastic and column `2` of the marginals
sums to one. -/
theorem C1_marginal_conservation_witness :
    (1 : Int) ≤ chainModel.n_states_ ∧ (2 : Int) < chainModel.T_ ∧
      ∑ i in Finset.range chainModel.n_states_.toNat,
        (ComputeStateProbabilities chainModel).state_probabilities_.get i 2 = 1 :=
  ⟨by decide, by decide,
    C1_marginal_conservation chainModel (by decide) (by decide)
      (by simp [chainModel, Vector.get, Finset.sum_range_succ]; norm_num)
      (by
        intro i hi
        have hi2 : i < 2 := by simpa [chainModel] using hi
        interval_cases i <;>
          simp [chainModel, Matrix.get, Finset.sum_range_succ] <;> norm_num)
      2 (by decide)⟩

/-- C2: after `ComputeStateProbabilities`, column `0` of `state_probabilities_`
is `p_initial_`; for `1 ≤ t < T_` entry `(j, t)` is the sum over `i` of entry
`(i, t - 1)` times `p_transition_(i, j)`; and column `t` is the row vector
`p_initial_` multiplied by the `t`-th power of the transition matrix. -/
theorem C2_forward_recursion (h : HMM D) :
    (∀ j : Nat, (j : Int) < h.n_states_ →
      (ComputeStateProbabilities h).state_probabilities_.get j 0 = h.p_initial_.get j) ∧
    (∀ t j : Nat, 1 ≤ t → (t : Int) < h.T_ → (j : Int) < h.n_states_ →
      (ComputeStateProbabilities h).state_probabilities_.get j t
        = ∑ i in Finset.range h.n_states_.toNat,
            (ComputeStateProbabilities h).state_probabilities_.get i (t - 1)
              * h.p_transition_.get i j) ∧
    (∀ (t : Nat) (j : Fin h.n_states_.toNat), (t : Int) < h.T_ →
      (ComputeStateProbabilities h).state_probabilities_.get j t
        = Matrix.vecMul (fun i : Fin h.n_states_.toNat => h.p_initial_.get i)
            ((Matrix.of fun i k : Fin h.n_states_.toNat => h.p_transition_.get i k) ^ t) j) := by
  refine ⟨fun j hj => ?_, fun t j ht1 ht hj => ?_, fun t j ht => ?_⟩
  · rw [ComputeStateProbabilities_probs h j 0 (by omega) (Or.inl rfl)]
    rfl
  · rw [ComputeStateProbabilities_probs h j t (by omega) (Or.inr (by omega))]
    obtain ⟨s, rfl⟩ : ∃ s, t = s + 1 := ⟨t - 1, by omega⟩
    simp only [marginal, Nat.add_sub_cancel]
    refine Finset.sum_congr rfl (fun i hi => ?_)
    rw [ComputeStateProbabilities_probs h i s (Finset.mem_range.mp hi) (Or.inr (by omega))]
    rfl
  · rw [ComputeStateProbabilities_probs h j t j.isLt (Or.inr (by omega))]
    exact marginal_eq_vecMul h t j

/-- C2 on `chainModel`: the base case at state `1`, the recursive step at `t = 2`, and
the matrix-power form at `t = 2`. -/
theorem C2_forward_recursion_witness :
    (ComputeStateProbabilities chainModel).state_probabilities_.get 1 0
        = chainModel.p_initial_.get 1 ∧
      (ComputeStateProbabilities chainModel).state_probabilities_.get 1 2
        = ∑ i in Finset.range chainModel.n_states_.toNat,
            (ComputeStateProbabilities chainModel).state_probabilities_.get i (2 - 1)
              * chainModel.p_transition_.get i 1 ∧
      (ComputeStateProbabilities chainModel).state_probabilities_.get
          ((⟨1, by decide⟩ : Fin chainModel.n_states_.toNat) : Nat) 2
        = Matrix.vecMul (fun i : Fin chainModel.n_states_.toNat => chainModel.p_initial_.get i)
            ((Matrix.of fun i k : Fin chainModel.n_states_.toNat =>
              chainModel.p_transition_.get i k) ^ 2) ⟨1, by decide⟩ :=
  ⟨(C2_forward_recursion chainModel).1 1 (by decide),
    (C2_forward_recursion chainModel).2.1 2 1 (by decide) (by decide) (by decide),
    (C2_forward_recursion chainModel).2.2 2 ⟨1, by decide⟩ (by decide)⟩

/-! ## The sampling scan -/

theorem get?_of_lt (m : Matrix) (i : Nat) (c : Int) (hi : i < m.n_rows) (hc0 : 0 ≤ c)
    (hc : c < (m.n_cols : Int)) : m.get? (i : Int) c = some (m.elem i c.toNat) := by
  unfold Matrix.get?
  rw [if_pos ⟨by omega, by omega, hc0, hc⟩]
  simp

theorem get?_eq_some (m : Matrix) (i : Nat) (c : Int) (x : ℚ)
    (hx : m.get? (i : Int) c = some x) :
    i < m.n_rows ∧ 0 ≤ c ∧ c < (m.n_cols : Int) ∧ x = m.elem i c.toNat := by
  unfold Matrix.get? at hx
  split_ifs at hx with hb
  simp only [Option.some.injEq, Int.toNat_ofNat] at hx
  exact ⟨by omega, hb.2.2.1, hb.2.2.2, hx.symm⟩

theorem scan_found (m : Matrix) (u : ℚ) (c : Int) (hc0 : 0 ≤ c) (hc : c < (m.n_cols : Int))
    (j : Nat) (hj : j < m.n_rows) (hge : u ≤ m.elem j c.toNat) :
    ∀ (fuel i : Nat), i ≤ j → j - i < fuel →
      (∀ k, i ≤ k → k < j → m.elem k c.toNat < u) → scan m u c fuel i = some j := by
  intro fuel
  induction fuel with
  | zero => intro i _ hf; omega
  | succ fuel ih =>
    intro i hij hf hlt
    rw [scan, get?_of_lt m i c (by omega) hc0 hc]
    simp only []
    by_cases hi : i = j
    · subst hi
      rw [if_neg (not_lt.mpr hge)]
    · rw [if_pos (hlt i (le_refl i) (by omega))]
      exact ih (i + 1) (by omega) (by omega) (fun k hk hkj => hlt k (by omega) hkj)

theorem scan_some (m : Matrix) (u : ℚ) (c : Int) (j : Nat) :
    ∀ (fuel i : Nat), scan m u c fuel i = some j →
      i ≤ j ∧ j < m.n_rows ∧ 0 ≤ c ∧ c < (m.n_cols : Int) ∧ u ≤ m.elem j c.toNat ∧
        ∀ k, i ≤ k → k < j → m.elem k c.toNat < u := by
  intro fuel
  induction fuel with
  | zero => intro i hs; simp [scan] at hs
  | succ fuel ih =>
    intro i hs
    rw [scan] at hs
    cases hg : m.get? (i : Int) c with
    | none => rw [hg] at hs; simp at hs
    | some x =>
      rw [hg] at hs
      simp only [] at hs
      obtain ⟨hi, hc0, hc, rfl⟩ := get?_eq_some m i c x hg
      by_cases hux : u > m.elem i c.toNat
      · rw [if_pos hux] at hs
        obtain ⟨h1, h2, h3, h4, h5, h6⟩ := ih (i + 1) hs
        refine ⟨by omega, h2, h3, h4, h5, fun k hk hkj => ?_⟩
        by_cases hki : k = i
        · subst hki; exact hux
        · exact h6 k (by omega) hkj
      · rw [if_neg hux] at hs
        simp only [Option.some.injEq] at hs
        subst hs
        exact ⟨le_refl _, hi, hc0, hc, not_lt.mp hux, fun k hk hkj => by omega⟩

theorem scan_outside (m : Matrix) (u : ℚ) (c : Int) (fuel i : Nat) (hi : ¬ i < m.n_rows) :
    scan m u c fuel i = none := by
  cases fuel with
  | zero => rfl
  | succ fuel =>
    have : m.get? (i : Int) c = none := by
      unfold Matrix.get?
      rw [if_neg (by omega)]
    rw [scan, this]

/-- The bound on the number of reads in `DrawState` and
`DrawStateGivenLastState` is never the reason a scan ends: any larger bound
gives the same result. -/
theorem scan_fuel (m : Matrix) (u : ℚ) (c : Int) :
    ∀ (fuel i : Nat), m.n_rows + 1 - i ≤ fuel →
      scan m u c fuel i = scan m u c (m.n_rows + 1 - i) i := by
  intro fuel
  induction fuel with
  | zero =>
    intro i hf
    have : m.n_rows + 1 - i = 0 := by omega
    rw [this]
  | succ fuel ih =>
    intro i hf
    by_cases hi : i < m.n_rows
    · have e : m.n_rows + 1 - i = (m.n_rows + 1 - (i + 1)) + 1 := by omega
      rw [e, scan, scan, ih (i + 1) (by omega)]
    · rw [scan_outside m u c _ i hi, scan_outside m u c _ i hi]

theorem scan_least (m : Matrix) (u : ℚ) (c : Nat) (hc : c < m.n_cols)
    (hex : ∃ i : Nat, i < m.n_rows ∧ u ≤ m.get i c) :
    ∃ i : Nat, scan m u (c : Int) (m.n_rows + 1) 0 = some i ∧ i < m.n_rows ∧
      u ≤ m.get i c ∧ ∀ k : Nat, k < i → m.get k c < u := by
  classical
  have hmin := Nat.find_spec hex
  have hlt : ∀ k, k < Nat.find hex → m.get k c < u := by
    intro k hk
    have := Nat.find_min hex hk
    rw [not_and, not_le] at this
    exact this (by omega)
  refine ⟨Nat.find hex, ?_, hmin.1, hmin.2, hlt⟩
  exact scan_found m u (c : Int) (by omega) (by omega) (Nat.find hex) hmin.1
    (by simpa [Matrix.get] using hmin.2) (m.n_rows + 1) 0 (Nat.zero_le _) (by omega)
    (fun k _ hk => by simpa [Matrix.get] using hlt k hk)

/-! ## Sizes are kept by every operation -/

theorem WF_ComputeStateProbabilities (h : HMM D) (hwf : WF h) :
    WF (ComputeStateProbabilities h) := by
  rw [ComputeStateProbabilities_eq]
  exact ⟨hwf.1, hwf.2, hwf.3, hwf.4, hwf.5, hwf.6, hwf.7, hwf.8, hwf.9⟩

theorem WF_ComputeCumulativePTransition (h : HMM D) (hwf : WF h) :
    WF (ComputeCumulativePTransition h) := by
  rw [ComputeCumulativePTransition_eq]
  exact ⟨hwf.1, hwf.2, hwf.3, hwf.4, hwf.5, hwf.6, hwf.7, hwf.8, hwf.9⟩

theorem WF_RandomlyInitialize (ops : DistributionOps D) (h : HMM D) (hwf : WF h) :
    WF (RandomlyInitialize ops h) := by
  rw [RandomlyInitialize_eq]
  exact ⟨hwf.1, hwf.2, hwf.3, hwf.4, hwf.5, hwf.6, hwf.7, hwf.8, hwf.9⟩

theorem WF_CustomInitialize (ops : DistributionOps D) (h : HMM D) (hwf : WF h) :
    WF (CustomInitialize ops h) := by
  rw [CustomInitialize_eq]
  exact ⟨hwf.1, hwf.2, hwf.3, hwf.4, hwf.5, hwf.6, hwf.7, hwf.8, hwf.9⟩

theorem WF_Init (ops : DistributionOps D) (n d T : Int) (hn : 0 ≤ n) (hT : 0 ≤ T) :
    WF (Init ops n d T) := by
  have e1 : ((n.toNat : Nat) : Int) = n := Int.toNat_of_nonneg hn
  have e2 : ((T.toNat : Nat) : Int) = T := Int.toNat_of_nonneg hT
  exact ⟨e1, e1, e1, e1, e2, e1, e2, e1, e1⟩

/-! ## Claims on sampling -/

/-- C3: for `0 ≤ t < T_` and a draw `u` that some entry of column `t` of
`state_cumulative_probabilities_` reaches, `DrawState` returns the least state
index whose cumulative value is at least `u`. -/
theorem C3_DrawState_least (h : HMM D) (hwf : WF h) (u : ℚ) (t : Nat)
    (ht : (t : Int) < h.T_)
    (hex : ∃ i : Nat, (i : Int) < h.n_states_ ∧
      u ≤ h.state_cumulative_probabilities_.get i t) :
    ∃ i : Nat, DrawState h u (t : Int) = some i ∧ (i : Int) < h.n_states_ ∧
      u ≤ h.state_cumulative_probabilities_.get i t ∧
      ∀ k : Nat, k < i → h.state_cumulative_probabilities_.get k t < u := by
  have hr := hwf.cum_rows
  have hc := hwf.cum_cols
  obtain ⟨i, h1, h2, h3, h4⟩ :=
    scan_least h.state_cumulative_probabilities_ u t (by omega)
      (by obtain ⟨i, hi, hu⟩ := hex; exact ⟨i, by omega, hu⟩)
  exact ⟨i, h1, by omega, h3, h4⟩

theorem DrawState_eq_some (h : HMM D) (hwf : WF h) (u : ℚ) (t j : Nat)
    (ht : (t : Int) < h.T_) (hj : (j : Int) < h.n_states_)
    (hge : u ≤ h.state_cumulative_probabilities_.get j t)
    (hlt : ∀ k : Nat, k < j → h.state_cumulative_probabilities_.get k t < u) :
    DrawState h u (t : Int) = some j := by
  have hr := hwf.cum_rows
  have hc := hwf.cum_cols
  exact scan_found h.state_cumulative_probabilities_ u (t : Int) (by omega) (by omega) j
    (by omega) (by simpa [Matrix.get] using hge) _ 0 (Nat.zero_le _) (by omega)
    (fun k _ hk => by simpa [Matrix.get] using hlt k hk)

theorem sampleModel_WF : WF sampleModel :=
  WF_ComputeStateProbabilities _ ⟨rfl, rfl, rfl, rfl, rfl, rfl, rfl, rfl, rfl⟩

theorem sampleModel_cumulative :
    sampleModel.state_cumulative_probabilities_.get 0 0 = 1 / 5 ∧
    sampleModel.state_cumulative_probabilities_.get 1 0 = 1 / 2 ∧
    sampleModel.state_cumulative_probabilities_.get 2 0 = 1 := by
  simp only [sampleModel, ComputeStateProbabilities_eq]
  simp [afterComputeStateProbabilities, probabilitiesUpTo, marginal, Init, Matrix.get,
    Finset.sum_range_succ]
  norm_num

/-- C3 on `sampleModel`: the least-index law at `u = 0.9`, and the three replayed
draws `u = 0.1`, `0.25`, `0.9` returning states `0`, `1`, `2`. -/
theorem C3_DrawState_least_witness :
    (∃ i : Nat, DrawState sampleModel (9 / 10) ((0 : Nat) : Int) = some i ∧
      (i : Int) < sampleModel.n_states_ ∧
      9 / 10 ≤ sampleModel.state_cumulative_probabilities_.get i 0 ∧
      ∀ k : Nat, k < i → sampleModel.state_cumulative_probabilities_.get k 0 < 9 / 10) ∧
    DrawState sampleModel (1 / 10) 0 = some 0 ∧
    DrawState sampleModel (1 / 4) 0 = some 1 ∧
    DrawState sampleModel (9 / 10) 0 = some 2 := by
  refine ⟨C3_DrawState_least sampleModel sampleModel_WF (9 / 10) 0 (by decide)
    ⟨2, by decide, by rw [sampleModel_cumulative.2.2]; norm_num⟩, ?_, ?_, ?_⟩
  · refine DrawState_eq_some sampleModel sampleModel_WF (1 / 10) 0 0 (by decide) (by decide)
      (by rw [sampleModel_cumulative.1]; norm_num) (fun k hk => by omega)
  · refine DrawState_eq_some sampleModel sampleModel_WF (1 / 4) 0 1 (by decide) (by decide)
      (by rw [sampleModel_cumulative.2.1]; norm_num) (fun k hk => ?_)
    interval_cases k
    rw [sampleModel_cumulative.1]; norm_num
  · refine DrawState_eq_some sampleModel sampleModel_WF (9 / 10) 0 2 (by decide) (by decide)
      (by rw [sampleModel_cumulative.2.2]; norm_num) (fun k hk => ?_)
    interval_cases k
    · rw [sampleModel_cumulative.1]; norm_num
    · rw [sampleModel_cumulative.2.1]; norm_num

theorem ComputeCumulativePTransition_table (h : HMM D) (i j : Nat)
    (hi : i < h.n_states_.toNat) (hj : j < h.n_states_.toNat) :
    (ComputeCumulativePTransition h).cumulative_p_transition_.get j i
      = ∑ k in Finset.range (j + 1), h.p_transition_.get i k := by
  rw [ComputeCumulativePTransition_eq]
  simp only [afterCumulativePTransition, Matrix.get]
  rw [if_pos ⟨hj, hi⟩]

theorem prefix_sum_mono (f : Nat → ℚ) (n : Nat) (hf : ∀ k, k < n → 0 ≤ f k) (a b : Nat)
    (hab : a ≤ b) (hb : b ≤ n) :
    ∑ k in Finset.range a, f k ≤ ∑ k in Finset.range b, f k := by
  induction b with
  | zero =>
    have : a = 0 := by omega
    rw [this]
  | succ b ih =>
    by_cases h1 : a = b + 1
    · rw [h1]
    · rw [Finset.sum_range_succ]
      have := ih (by omega) (by omega)
      have := hf b (by omega)
      linarith

theorem DrawStateGivenLastState_interval (h : HMM D) (hwf : WF h)
    (hnn : ∀ i k : Nat, (i : Int) < h.n_states_ → (k : Int) < h.n_states_ →
      0 ≤ h.p_transition_.get i k)
    (u : ℚ) (cur j : Nat) (hcur : (cur : Int) < h.n_states_) (hj : (j : Int) < h.n_states_) :
    DrawStateGivenLastState (ComputeCumulativePTransition h) u (cur : Int) = some j ↔
      (j = 0 ∨ ∑ k in Finset.range j, h.p_transition_.get cur k < u) ∧
        u ≤ ∑ k in Finset.range (j + 1), h.p_transition_.get cur k := by
  have hwf' := WF_ComputeCumulativePTransition h hwf
  have hr := hwf'.ctrans_rows
  have hc := hwf'.ctrans_cols
  have hn : (ComputeCumulativePTransition h).n_states_ = h.n_states_ := by
    rw [ComputeCumulativePTransition_eq]; rfl
  rw [hn] at hr hc
  have htab : ∀ x : Nat, x < h.n_states_.toNat →
      (ComputeCumulativePTransition h).cumulative_p_transition_.elem x cur
        = ∑ k in Finset.range (x + 1), h.p_transition_.get cur k :=
    fun x hx => ComputeCumulativePTransition_table h cur x (by omega) hx
  constructor
  · intro hs
    obtain ⟨_, h2, _, _, h5, h6⟩ := scan_some _ u _ j _ _ hs
    simp only [Int.toNat_ofNat] at h5 h6
    rw [htab j (by omega)] at h5
    refine ⟨?_, h5⟩
    by_cases hj0 : j = 0
    · exact Or.inl hj0
    · right
      have := h6 (j - 1) (Nat.zero_le _) (by omega)
      rw [htab (j - 1) (by omega)] at this
      have e : j - 1 + 1 = j := by omega
      rwa [e] at this
  · rintro ⟨hlow, hup⟩
    refine scan_found _ u _ (by omega) (by omega) j (by omega) ?_ _ 0 (Nat.zero_le _)
      (by omega) ?_
    · simp only [Int.toNat_ofNat]
      rw [htab j (by omega)]
      exact hup
    · intro k _ hk
      simp only [Int.toNat_ofNat]
      rw [htab k (by omega)]
      rcases hlow with hj0 | hlow
      · omega
      · refine lt_of_le_of_lt ?_ hlow
        exact prefix_sum_mono (fun k => h.p_transition_.get cur k) h.n_states_.toNat
          (fun k hk => hnn cur k hcur (by omega)) (k + 1) j (by omega) (by omega)

theorem uniformBase_WF : WF uniformBase :=
  WF_RandomlyInitialize _ _ (WF_Init _ 2 1 1 (by decide) (by decide))

theorem uniformBase_transition (i k : Nat) (hi : i < 2) (hk : k < 2) :
    uniformBase.p_transition_.get i k = 1 / 2 := by
  simp only [uniformBase, RandomlyInitialize_eq]
  simp only [afterRandomlyInitialize, Init, Matrix.get]
  rw [if_pos ⟨by simpa using hi, by simpa using hk⟩]
  norm_num

theorem uniformBase_nonneg (i k : Nat) (hi : (i : Int) < uniformBase.n_states_)
    (hk : (k : Int) < uniformBase.n_states_) : 0 ≤ uniformBase.p_transition_.get i k := by
  have hi2 : i < 2 := by
    simpa [uniformBase, RandomlyInitialize_eq, afterRandomlyInitialize, Init] using hi
  have hk2 : k < 2 := by
    simpa [uniformBase, RandomlyInitialize_eq, afterRandomlyInitialize, Init] using hk
  rw [uniformBase_transition i k hi2 hk2]
  norm_num

/-- C5: after `ComputeCumulativePTransition`, for states `i`, `j` in range,
`cumulative_p_transition_(j, i)` is the sum of `p_transition_(i, k)` over
`k ≤ j`. -/
theorem C5_cumulative_transposed (h : HMM D) (i j : Nat)
    (hi : (i : Int) < h.n_states_) (hj : (j : Int) < h.n_states_) :
    (ComputeCumulativePTransition h).cumulative_p_transition_.get j i
      = ∑ k in Finset.range (j + 1), h.p_transition_.get i k :=
  ComputeCumulativePTransition_table h i j (by omega) (by omega)

/-- C5 on `chainModel`, at `i = 0`, `j = 1`. -/
theorem C5_cumulative_transposed_witness :
    ((0 : Nat) : Int) < chainModel.n_states_ ∧ ((1 : Nat) : Int) < chainModel.n_states_ ∧
    (ComputeCumulativePTransition chainModel).cumulative_p_transition_.get 1 0
      = ∑ k in Finset.range (1 + 1), chainModel.p_transition_.get 0 k :=
  ⟨by decide, by decide, C5_cumulative_transposed chainModel 0 1 (by decide) (by decide)⟩

/-! ## Claims on the initializers -/

theorem toNat_cast (h : HMM D) (hn : 1 ≤ h.n_states_) :
    ((h.n_states_.toNat : Nat) : ℚ) = (h.n_states_ : ℚ) := by
  have : ((h.n_states_.toNat : Nat) : Int) = h.n_states_ := Int.toNat_of_nonneg (by omega)
  exact_mod_cast this

theorem CustomInitialize_transition (ops : DistributionOps D) (h : HMM D) (r c : Nat)
    (hr : r < h.n_states_.toNat) (hc : c < h.n_states_.toNat) :
    (CustomInitialize ops h).p_transition_.get r c
      = biasedWeight (1 / (h.n_states_ : ℚ)) r c /
          ∑ x in Finset.range h.n_states_.toNat, biasedWeight (1 / (h.n_states_ : ℚ)) r x := by
  rw [CustomInitialize_eq]
  simp only [afterCustomInitialize, afterCumulativePTransition, customTransition, Matrix.get]
  rw [if_pos ⟨hr, hc⟩]

theorem CustomInitialize_initial (ops : DistributionOps D) (h : HMM D) (i : Nat)
    (hi : i < h.n_states_.toNat) :
    (CustomInitialize ops h).p_initial_.get i
      = 1 / (((i + 1 : Nat) : ℚ)) /
          ∑ k in Finset.range h.n_states_.toNat, 1 / (((k + 1 : Nat) : ℚ)) := by
  rw [CustomInitialize_eq]
  simp only [afterCustomInitialize, afterCumulativePTransition, customInitial, Vector.get]
  rw [if_pos hi]

theorem biasedWeight_rowsum (u : ℚ) (n r : Nat) (hr : r < n) :
    ∑ x in Finset.range n, biasedWeight u r x = 1 + ((n : ℚ) - 1) * u := by
  have e : ∀ x, biasedWeight u r x = u + (if r = x then (1 - u) else 0) := by
    intro x
    unfold biasedWeight
    split_ifs <;> ring
  simp only [e, Finset.sum_add_distrib, Finset.sum_const, Finset.card_range,
    Finset.sum_ite_eq, Finset.mem_range, hr, if_true, nsmul_eq_mul]
  ring

theorem biasedWeight_rowsum_pos (h : HMM D) (hn : 1 ≤ h.n_states_) (r : Nat)
    (hr : r < h.n_states_.toNat) :
    0 < ∑ x in Finset.range h.n_states_.toNat, biasedWeight (1 / (h.n_states_ : ℚ)) r x := by
  rw [biasedWeight_rowsum _ _ _ hr, toNat_cast h hn]
  have hN : (1 : ℚ) ≤ (h.n_states_ : ℚ) := by exact_mod_cast hn
  have : 0 ≤ ((h.n_states_ : ℚ) - 1) * (1 / (h.n_states_ : ℚ)) :=
    mul_nonneg (by linarith) (by positivity)
  linarith

/-- C6: after `CustomInitialize` with at least one state, every row of
`p_transition_` sums to one and the diagonal entry of a row is its largest
entry. -/
theorem C6_biased_rows (ops : DistributionOps D) (h : HMM D) (hn : 1 ≤ h.n_states_)
    (j : Nat) (hj : (j : Int) < h.n_states_) :
    ∑ c in Finset.range h.n_states_.toNat, (CustomInitialize ops h).p_transition_.get j c = 1 ∧
    ∀ c : Nat, (c : Int) < h.n_states_ →
      (CustomInitialize ops h).p_transition_.get j c
        ≤ (CustomInitialize ops h).p_transition_.get j j := by
  have hj' : j < h.n_states_.toNat := by omega
  have hpos := biasedWeight_rowsum_pos h hn j hj'
  have hN : (1 : ℚ) ≤ (h.n_states_ : ℚ) := by exact_mod_cast hn
  constructor
  · rw [Finset.sum_congr rfl (fun c hc =>
      CustomInitialize_transition ops h j c hj' (Finset.mem_range.mp hc))]
    rw [← Finset.sum_div]
    exact div_self (ne_of_gt hpos)
  · intro c hc
    rw [CustomInitialize_transition ops h j c hj' (by omega),
      CustomInitialize_transition ops h j j hj' hj']
    refine div_le_div_of_nonneg_right ?_ (le_of_lt hpos)
    unfold biasedWeight
    rw [if_pos rfl]
    split_ifs
    · exact le_refl _
    · rw [div_le_iff₀ (by linarith)]
      linarith

/-- C6 on `threeStates`, row `1`. -/
theorem C6_biased_rows_witness :
    (1 : Int) ≤ threeStates.n_states_ ∧ ((1 : Nat) : Int) < threeStates.n_states_ ∧
    (∑ c in Finset.range threeStates.n_states_.toNat,
        (CustomInitialize unitOps threeStates).p_transition_.get 1 c = 1 ∧
      ∀ c : Nat, (c : Int) < threeStates.n_states_ →
        (CustomInitialize unitOps threeStates).p_transition_.get 1 c
          ≤ (CustomInitialize unitOps threeStates).p_transition_.get 1 1) :=
  ⟨by decide, by decide, C6_biased_rows unitOps threeStates (by decide) 1 (by decide)⟩

theorem harmonic_pos (n : Nat) (hn : 0 < n) :
    0 < ∑ k in Finset.range n, 1 / (((k + 1 : Nat) : ℚ)) :=
  Finset.sum_pos (fun k _ => by positivity) ⟨0, Finset.mem_range.mpr hn⟩

/-- C7: after `CustomInitialize` with at least one state, `p_initial_[i]` is
`1/(i+1)` divided by the sum of `1/(k+1)` over all states `k`; the entries sum
to one and are strictly decreasing in `i`. -/
theorem C7_biased_initial (ops : DistributionOps D) (h : HMM D) (hn : 1 ≤ h.n_states_) :
    (∀ i : Nat, (i : Int) < h.n_states_ →
      (CustomInitialize ops h).p_initial_.get i
        = 1 / (((i + 1 : Nat) : ℚ)) /
            ∑ k in Finset.range h.n_states_.toNat, 1 / (((k + 1 : Nat) : ℚ))) ∧
    ∑ i in Finset.range h.n_states_.toNat, (CustomInitialize ops h).p_initial_.get i = 1 ∧
    (∀ i j : Nat, i < j → (j : Int) < h.n_states_ →
      (CustomInitialize ops h).p_initial_.get j < (CustomInitialize ops h).p_initial_.get i) := by
  have hpos := harmonic_pos h.n_states_.toNat (by omega)
  refine ⟨fun i hi => CustomInitialize_initial ops h i (by omega), ?_, fun i j hij hj => ?_⟩
  · rw [Finset.sum_congr rfl (fun i hi =>
      CustomInitialize_initial ops h i (Finset.mem_range.mp hi))]
    rw [← Finset.sum_div]
    exact div_self (ne_of_gt hpos)
  · rw [CustomInitialize_initial ops h i (by omega), CustomInitialize_initial ops h j (by omega)]
    refine div_lt_div_of_pos_right ?_ hpos
    refine one_div_lt_one_div_of_lt (by positivity) ?_
    exact_mod_cast Nat.succ_lt_succ hij

/-- C7 on `threeStates`: the closed form at state `2`, the sum, and one strict
decrease. -/
theorem C7_biased_initial_witness :
    (1 : Int) ≤ threeStates.n_states_ ∧
    ((CustomInitialize unitOps threeStates).p_initial_.get 2
        = 1 / (((2 + 1 : Nat) : ℚ)) /
            ∑ k in Finset.range threeStates.n_states_.toNat, 1 / (((k + 1 : Nat) : ℚ))) ∧
    ∑ i in Finset.range threeStates.n_states_.toNat,
      (CustomInitialize unitOps threeStates).p_initial_.get i = 1 ∧
    (CustomInitialize unitOps threeStates).p_initial_.get 2
      < (CustomInitialize unitOps threeStates).p_initial_.get 1 :=
  ⟨by decide,
    (C7_biased_initial unitOps threeStates (by decide)).1 2 (by decide),
    (C7_biased_initial unitOps threeStates (by decide)).2.1,
    (C7_biased_initial unitOps threeStates (by decide)).2.2 1 2 (by decide) (by decide)⟩

theorem custom3_initial (ops : DistributionOps D) (h : HMM D) (h3 : h.n_states_ = 3) :
    (CustomInitialize ops h).p_initial_.get 0 = 6 / 11 ∧
    (CustomInitialize ops h).p_initial_.get 1 = 3 / 11 ∧
    (CustomInitialize ops h).p_initial_.get 2 = 2 / 11 := by
  have e : h.n_states_.toNat = 3 := by rw [h3]; rfl
  refine ⟨?_, ?_, ?_⟩ <;>
    rw [CustomInitialize_initial _ _ _ (by omega), e] <;>
    simp [Finset.sum_range_succ] <;> norm_num

theorem custom3_row0 (ops : DistributionOps D) (h : HMM D) (h3 : h.n_states_ = 3) :
    (CustomInitialize ops h).p_transition_.get 0 0 = 3 / 5 ∧
    (CustomInitialize ops h).p_transition_.get 0 1 = 1 / 5 ∧
    (CustomInitialize ops h).p_transition_.get 0 2 = 1 / 5 := by
  have e : h.n_states_.toNat = 3 := by rw [h3]; rfl
  refine ⟨?_, ?_, ?_⟩ <;>
    rw [CustomInitialize_transition _ _ _ _ (by omega) (by omega), e, h3] <;>
    simp [biasedWeight, Finset.sum_range_succ] <;> norm_num

/-- C8 (counterexample): for `stateCount = 3` the first row of `p_transition_`
after `CustomInitialize` is not `[0.667, 0.167, 0.167]` to three decimals: its
first entry is `3/5`. -/
theorem C8_counterexample :
    ¬ (toThreeDecimals ((CustomInitialize unitOps threeStates).p_transition_.get 0 0) (667 / 1000) ∧
      toThreeDecimals ((CustomInitialize unitOps threeStates).p_transition_.get 0 1) (167 / 1000) ∧
      toThreeDecimals ((CustomInitialize unitOps threeStates).p_transition_.get 0 2) (167 / 1000)) := by
  rintro ⟨h0, -, -⟩
  rw [(custom3_row0 unitOps threeStates rfl).1, toThreeDecimals, abs_le] at h0
  norm_num at h0

/-- C8 (amended): for `stateCount = 3`, after `CustomInitialize`, `p_initial_`
is `[0.545, 0.273, 0.182]` to three decimals (exactly `6/11, 3/11, 2/11`) and
row `0` of `p_transition_` is `[0.6, 0.2, 0.2]` (exactly `3/5, 1/5, 1/5`). -/
theorem C8_biased_scenario_amended (ops : DistributionOps D) (h : HMM D)
    (h3 : h.n_states_ = 3) :
    (toThreeDecimals ((CustomInitialize ops h).p_initial_.get 0) (545 / 1000) ∧
      toThreeDecimals ((CustomInitialize ops h).p_initial_.get 1) (273 / 1000) ∧
      toThreeDecimals ((CustomInitialize ops h).p_initial_.get 2) (182 / 1000)) ∧
    ((CustomInitialize ops h).p_transition_.get 0 0 = 3 / 5 ∧
      (CustomInitialize ops h).p_transition_.get 0 1 = 1 / 5 ∧
      (CustomInitialize ops h).p_transition_.get 0 2 = 1 / 5) := by
  obtain ⟨i0, i1, i2⟩ := custom3_initial ops h h3
  refine ⟨⟨?_, ?_, ?_⟩, custom3_row0 ops h h3⟩
  · rw [i0, toThreeDecimals, abs_le]; norm_num
  · rw [i1, toThreeDecimals, abs_le]; norm_num
  · rw [i2, toThreeDecimals, abs_le]; norm_num

/-- C8 (amended) on `threeStates`. -/
theorem C8_biased_scenario_amended_witness :
    threeStates.n_states_ = 3 ∧
    (toThreeDecimals ((CustomInitialize unitOps threeStates).p_initial_.get 0) (545 / 1000) ∧
      toThreeDecimals ((CustomInitialize unitOps threeStates).p_initial_.get 1) (273 / 1000) ∧
      toThreeDecimals ((CustomInitialize unitOps threeStates).p_initial_.get 2) (182 / 1000)) ∧
    ((CustomInitialize unitOps threeStates).p_transition_.get 0 0 = 3 / 5 ∧
      (CustomInitialize unitOps threeStates).p_transition_.get 0 1 = 1 / 5 ∧
      (CustomInitialize unitOps threeStates).p_transition_.get 0 2 = 1 / 5) :=
  ⟨rfl, C8_biased_scenario_amended unitOps threeStates rfl⟩

theorem RandomlyInitialize_initial (ops : DistributionOps D) (h : HMM D) (i : Nat)
    (hi : i < h.n_states_.toNat) :
    (RandomlyInitialize ops h).p_initial_.get i = 1 / (h.n_states_ : ℚ) := by
  rw [RandomlyInitialize_eq]
  simp only [afterRandomlyInitialize, Vector.get]
  rw [if_pos hi]

theorem RandomlyInitialize_transition (ops : DistributionOps D) (h : HMM D) (i j : Nat)
    (hi : i < h.n_states_.toNat) (hj : j < h.n_states_.toNat) :
    (RandomlyInitialize ops h).p_transition_.get i j = 1 / (h.n_states_ : ℚ) := by
  rw [RandomlyInitialize_eq]
  simp only [afterRandomlyInitialize, Matrix.get]
  rw [if_pos ⟨hi, hj⟩]

theorem uniform_sum (h : HMM D) (hn : 1 ≤ h.n_states_) :
    ∑ _i in Finset.range h.n_states_.toNat, 1 / (h.n_states_ : ℚ) = 1 := by
  rw [Finset.sum_const, Finset.card_range, nsmul_eq_mul, toNat_cast h hn]
  have hN : (1 : ℚ) ≤ (h.n_states_ : ℚ) := by exact_mod_cast hn
  field_simp

/-- C9: after `RandomlyInitialize` with at least one state, every entry of
`p_initial_` and every entry of `p_transition_` (the diagonal included) is
`1 / n_states_`; `p_initial_` sums to one and so does every row of
`p_transition_`. -/
theorem C9_uniform_initialization (ops : DistributionOps D) (h : HMM D)
    (hn : 1 ≤ h.n_states_) :
    (∀ i : Nat, (i : Int) < h.n_states_ →
      (RandomlyInitialize ops h).p_initial_.get i = 1 / (h.n_states_ : ℚ)) ∧
    (∀ i j : Nat, (i : Int) < h.n_states_ → (j : Int) < h.n_states_ →
      (RandomlyInitialize ops h).p_transition_.get i j = 1 / (h.n_states_ : ℚ)) ∧
    ∑ i in Finset.range h.n_states_.toNat, (RandomlyInitialize ops h).p_initial_.get i = 1 ∧
    (∀ i : Nat, (i : Int) < h.n_states_ →
      ∑ j in Finset.range h.n_states_.toNat,
        (RandomlyInitialize ops h).p_transition_.get i j = 1) := by
  refine ⟨fun i hi => RandomlyInitialize_initial ops h i (by omega),
    fun i j hi hj => RandomlyInitialize_transition ops h i j (by omega) (by omega), ?_,
    fun i hi => ?_⟩
  · rw [Finset.sum_congr rfl (fun i hi =>
      RandomlyInitialize_initial ops h i (Finset.mem_range.mp hi))]
    exact uniform_sum h hn
  · rw [Finset.sum_congr rfl (fun j hj =>
      RandomlyInitialize_transition ops h i j (by omega) (Finset.mem_range.mp hj))]
    exact uniform_sum h hn

/-- C9 on `twoStates`. -/
theorem C9_uniform_initialization_witness :
    (1 : Int) ≤ twoStates.n_states_ ∧
    (RandomlyInitialize unitOps twoStates).p_initial_.get 1 = 1 / (twoStates.n_states_ : ℚ) ∧
    (RandomlyInitialize unitOps twoStates).p_transition_.get 1 1
      = 1 / (twoStates.n_states_ : ℚ) ∧
    ∑ i in Finset.range twoStates.n_states_.toNat,
      (RandomlyInitialize unitOps twoStates).p_initial_.get i = 1 ∧
    ∑ j in Finset.range twoStates.n_states_.toNat,
      (RandomlyInitialize unitOps twoStates).p_transition_.get 0 j = 1 :=
  ⟨by decide,
    (C9_uniform_initialization unitOps twoStates (by decide)).1 1 (by decide),
    (C9_uniform_initialization unitOps twoStates (by decide)).2.1 1 1 (by decide) (by decide),
    (C9_uniform_initialization unitOps twoStates (by decide)).2.2.1,
    (C9_uniform_initialization unitOps twoStates (by decide)).2.2.2 0 (by decide)⟩

theorem marginal_uniform (g : HMM D) (hn : 1 ≤ g.n_states_)
    (hinit : ∀ i, i < g.n_states_.toNat → g.p_initial_.get i = 1 / (g.n_states_ : ℚ))
    (htr : ∀ i j, i < g.n_states_.toNat → j < g.n_states_.toNat →
      g.p_transition_.get i j = 1 / (g.n_states_ : ℚ)) (t : Nat) :
    ∀ j, j < g.n_states_.toNat → marginal g t j = 1 / (g.n_states_ : ℚ) := by
  induction t with
  | zero => exact fun j hj => hinit j hj
  | succ t ih =>
    intro j hj
    simp only [marginal]
    rw [Finset.sum_congr rfl (fun i hi => by
      rw [ih i (Finset.mem_range.mp hi),
        show g.p_transition_.elem i j = 1 / (g.n_states_ : ℚ) from
          htr i j (Finset.mem_range.mp hi) hj])]
    rw [← Finset.sum_mul, uniform_sum g hn, one_mul]

/-- C10: after `RandomlyInitialize` followed by `ComputeStateProbabilities`,
with at least one state and horizon at least one, every entry `(i, t)` of
`state_probabilities_` with `t < T_` is `1 / n_states_`. -/
theorem C10_uniform_stationary (ops : DistributionOps D) (h : HMM D)
    (hn : 1 ≤ h.n_states_) (_hT : 1 ≤ h.T_) (i t : Nat)
    (hi : (i : Int) < h.n_states_) (ht : (t : Int) < h.T_) :
    (ComputeStateProbabilities (RandomlyInitialize ops h)).state_probabilities_.get i t
      = 1 / (h.n_states_ : ℚ) := by
  have en : (RandomlyInitialize ops h).n_states_ = h.n_states_ := by
    rw [RandomlyInitialize_eq]; rfl
  have eT : (RandomlyInitialize ops h).T_ = h.T_ := by
    rw [RandomlyInitialize_eq]; rfl
  rw [ComputeStateProbabilities_probs _ i t (by rw [en]; omega) (Or.inr (by rw [eT]; omega))]
  rw [marginal_uniform (RandomlyInitialize ops h) (by rw [en]; exact hn)
    (fun i hi => by rw [en] at hi ⊢; exact RandomlyInitialize_initial ops h i hi)
    (fun i j hi hj => by
      rw [en] at hi hj ⊢; exact RandomlyInitialize_transition ops h i j hi hj)
    t i (by rw [en]; omega), en]

/-- C10 on `twoStates` (`stateCount = 2`, `dimCount = 1`, `horizon = 3`): all six
entries of the marginal table are `0.5`. -/
theorem C10_uniform_stationary_witness :
    (1 : Int) ≤ twoStates.n_states_ ∧ (1 : Int) ≤ twoStates.T_ ∧
    (∀ i t : Nat, i < 2 → t < 3 →
      (ComputeStateProbabilities (RandomlyInitialize unitOps twoStates)).state_probabilities_.get
        i t = 1 / 2) := by
  refine ⟨by decide, by decide, fun i t hi ht => ?_⟩
  have := C10_uniform_stationary unitOps twoStates (by decide) (by decide) i t
    (by show (i : Int) < 2; omega) (by show (t : Int) < 3; omega)
  rw [this]
  simp [twoStates, Init]

/-! ## The cumulative tables and the frame of the initializers -/

theorem afterCumulativePTransition_idem (h : HMM D) :
    afterCumulativePTransition (afterCumulativePTransition h h.n_states_.toNat)
        h.n_states_.toNat
      = afterCumulativePTransition h h.n_states_.toNat := by
  simp only [afterCumulativePTransition]
  ext : 1 <;> try rfl
  ext r c <;> try rfl
  simp only []
  split_ifs <;> rfl

theorem ComputeCumulativePTransition_idem (h : HMM D) :
    ComputeCumulativePTransition (ComputeCumulativePTransition h)
      = ComputeCumulativePTransition h := by
  rw [ComputeCumulativePTransition_eq h, ComputeCumulativePTransition_eq]
  exact afterCumulativePTransition_idem h

theorem ComputeCumulativePTransition_frame (h : HMM D) :
    (ComputeCumulativePTransition h).n_states_ = h.n_states_ ∧
    (ComputeCumulativePTransition h).n_dims_ = h.n_dims_ ∧
    (ComputeCumulativePTransition h).T_ = h.T_ ∧
    (ComputeCumulativePTransition h).p_initial_ = h.p_initial_ ∧
    (ComputeCumulativePTransition h).p_transition_ = h.p_transition_ ∧
    (ComputeCumulativePTransition h).state_distributions_ = h.state_distributions_ ∧
    (ComputeCumulativePTransition h).state_probabilities_ = h.state_probabilities_ ∧
    (ComputeCumulativePTransition h).state_cumulative_probabilities_
      = h.state_cumulative_probabilities_ := by
  rw [ComputeCumulativePTransition_eq]
  exact ⟨rfl, rfl, rfl, rfl, rfl, rfl, rfl, rfl⟩

/-- C14: calling `ComputeCumulativePTransition` a second time changes nothing:
the whole object, `cumulative_p_transition_` included, equals the object after
the first call; and a call changes no field other than
`cumulative_p_transition_`. -/
theorem C14_cumulative_idempotent (h : HMM D) :
    ComputeCumulativePTransition (ComputeCumulativePTransition h)
        = ComputeCumulativePTransition h ∧
    (ComputeCumulativePTransition (ComputeCumulativePTransition h)).cumulative_p_transition_
        = (ComputeCumulativePTransition h).cumulative_p_transition_ ∧
    (ComputeCumulativePTransition h).p_transition_ = h.p_transition_ :=
  ⟨ComputeCumulativePTransition_idem h,
    congrArg (fun x => x.cumulative_p_transition_) (ComputeCumulativePTransition_idem h),
    (ComputeCumulativePTransition_frame h).2.2.2.2.1⟩

theorem CustomInitialize_cumulative (ops : DistributionOps D) (h : HMM D) (i j : Nat)
    (hi : i < h.n_states_.toNat) (hj : j < h.n_states_.toNat) :
    (CustomInitialize ops h).cumulative_p_transition_.get j i
      = ∑ k in Finset.range (j + 1), (CustomInitialize ops h).p_transition_.get i k := by
  rw [CustomInitialize_eq]
  simp only [afterCustomInitialize, afterCumulativePTransition, Matrix.get]
  rw [if_pos ⟨hj, hi⟩]

theorem CustomInitialize_current (ops : DistributionOps D) (h : HMM D) :
    ComputeCumulativePTransition (CustomInitialize ops h) = CustomInitialize ops h := by
  rw [CustomInitialize_eq]
  unfold afterCustomInitialize
  rw [ComputeCumulativePTransition_eq]
  exact afterCumulativePTransition_idem _

/-- C15: after `CustomInitialize` with at least one state,
`cumulative_p_transition_(j, i)` is the sum over `k ≤ j` of the freshly
initialised `p_transition_(i, k)`, for all states `i`, `j`; and a following
call of `ComputeCumulativePTransition` changes nothing. -/
theorem C15_custom_cumulative_current (ops : DistributionOps D) (h : HMM D)
    (_hn : 1 ≤ h.n_states_) :
    (∀ i j : Nat, (i : Int) < h.n_states_ → (j : Int) < h.n_states_ →
      (CustomInitialize ops h).cumulative_p_transition_.get j i
        = ∑ k in Finset.range (j + 1), (CustomInitialize ops h).p_transition_.get i k) ∧
    ComputeCumulativePTransition (CustomInitialize ops h) = CustomInitialize ops h :=
  ⟨fun i j hi hj => CustomInitialize_cumulative ops h i j (by omega) (by omega),
    CustomInitialize_current ops h⟩

/-- C15 on `threeStates`, at `i = 0`, `j = 2`. -/
theorem C15_custom_cumulative_current_witness :
    (1 : Int) ≤ threeStates.n_states_ ∧
    (CustomInitialize unitOps threeStates).cumulative_p_transition_.get 2 0
      = ∑ k in Finset.range (2 + 1), (CustomInitialize unitOps threeStates).p_transition_.get 0 k ∧
    ComputeCumulativePTransition (CustomInitialize unitOps threeStates)
      = CustomInitialize unitOps threeStates :=
  ⟨by decide,
    (C15_custom_cumulative_current unitOps threeStates (by decide)).1 0 2 (by decide) (by decide),
    (C15_custom_cumulative_current unitOps threeStates (by decide)).2⟩

/-- C16: `RandomlyInitialize` leaves `cumulative_p_transition_`,
`state_probabilities_` and `state_cumulative_probabilities_` as they were (and
the three sizes too): only `p_initial_`, `p_transition_` and
`state_distributions_` are written. -/
theorem C16_random_frame (ops : DistributionOps D) (h : HMM D) :
    (RandomlyInitialize ops h).cumulative_p_transition_ = h.cumulative_p_transition_ ∧
    (RandomlyInitialize ops h).state_probabilities_ = h.state_probabilities_ ∧
    (RandomlyInitialize ops h).state_cumulative_probabilities_
      = h.state_cumulative_probabilities_ ∧
    (RandomlyInitialize ops h).n_states_ = h.n_states_ ∧
    (RandomlyInitialize ops h).n_dims_ = h.n_dims_ ∧
    (RandomlyInitialize ops h).T_ = h.T_ := by
  rw [RandomlyInitialize_eq]
  exact ⟨rfl, rfl, rfl, rfl, rfl, rfl⟩

theorem ComputeStateProbabilities_cumulative (h : HMM D) (i t : Nat)
    (hi : i < h.n_states_.toNat) (ht : t < h.T_.toNat) :
    (ComputeStateProbabilities h).state_cumulative_probabilities_.get i t
      = ∑ k in Finset.range (i + 1),
          (ComputeStateProbabilities h).state_probabilities_.get k t := by
  rw [ComputeStateProbabilities_eq]
  simp only [afterComputeStateProbabilities, Matrix.get]
  rw [if_pos ⟨hi, ht⟩]

/-- C18: after `ComputeStateProbabilities`, for every state `i` and every
`t < T_`, `state_cumulative_probabilities_(i, t)` is the sum over `k ≤ i` of
the `state_probabilities_(k, t)` just computed. -/
theorem C18_marginal_cumulative (h : HMM D) (i t : Nat)
    (hi : (i : Int) < h.n_states_) (ht : (t : Int) < h.T_) :
    (ComputeStateProbabilities h).state_cumulative_probabilities_.get i t
      = ∑ k in Finset.range (i + 1),
          (ComputeStateProbabilities h).state_probabilities_.get k t :=
  ComputeStateProbabilities_cumulative h i t (by omega) (by omega)

/-- C18 on `chainModel`, at `i = 1`, `t = 2`. -/
theorem C18_marginal_cumulative_witness :
    ((1 : Nat) : Int) < chainModel.n_states_ ∧ ((2 : Nat) : Int) < chainModel.T_ ∧
    (ComputeStateProbabilities chainModel).state_cumulative_probabilities_.get 1 2
      = ∑ k in Finset.range (1 + 1),
          (ComputeStateProbabilities chainModel).state_probabilities_.get k 2 :=
  ⟨by decide, by decide, C18_marginal_cumulative chainModel 1 2 (by decide) (by decide)⟩

/-! ## Closed form of the biased transition matrix -/

theorem biasedWeight_rowsum_uniform (h : HMM D) (hn : 1 ≤ h.n_states_) (r : Nat)
    (hr : r < h.n_states_.toNat) :
    ∑ x in Finset.range h.n_states_.toNat, biasedWeight (1 / (h.n_states_ : ℚ)) r x
      = (2 * (h.n_states_ : ℚ) - 1) / (h.n_states_ : ℚ) := by
  rw [biasedWeight_rowsum _ _ _ hr, toNat_cast h hn]
  have hN : (1 : ℚ) ≤ (h.n_states_ : ℚ) := by exact_mod_cast hn
  field_simp
  ring

/-- C20: after `CustomInitialize` with `n ≥ 1` states, every entry of
`p_transition_` is the weight `1` (diagonal) or `1/n` (elsewhere) divided by
the row sum `(2n-1)/n` of these weights: the diagonal entries are `n/(2n-1)`,
the others `1/(2n-1)`, so the off-diagonal entries of a row are all equal. -/
theorem C20_biased_closed_form (ops : DistributionOps D) (h : HMM D)
    (hn : 1 ≤ h.n_states_) (i j : Nat)
    (hi : (i : Int) < h.n_states_) (hj : (j : Int) < h.n_states_) :
    (CustomInitialize ops h).p_transition_.get i j
        = (if i = j then 1 else 1 / (h.n_states_ : ℚ))
            / ((2 * (h.n_states_ : ℚ) - 1) / (h.n_states_ : ℚ)) ∧
    (CustomInitialize ops h).p_transition_.get j j
        = (h.n_states_ : ℚ) / (2 * (h.n_states_ : ℚ) - 1) ∧
    (i ≠ j → (CustomInitialize ops h).p_transition_.get i j
        = 1 / (2 * (h.n_states_ : ℚ) - 1)) ∧
    (∀ k : Nat, (k : Int) < h.n_states_ → i ≠ j → i ≠ k →
      (CustomInitialize ops h).p_transition_.get i j
        = (CustomInitialize ops h).p_transition_.get i k) := by
  have hN : (1 : ℚ) ≤ (h.n_states_ : ℚ) := by exact_mod_cast hn
  have hN0 : (h.n_states_ : ℚ) ≠ 0 := by linarith
  have h2 : 2 * (h.n_states_ : ℚ) - 1 ≠ 0 := by linarith
  have key : ∀ a b : Nat, (a : Int) < h.n_states_ → (b : Int) < h.n_states_ →
      (CustomInitialize ops h).p_transition_.get a b
        = (if a = b then 1 else 1 / (h.n_states_ : ℚ))
            / ((2 * (h.n_states_ : ℚ) - 1) / (h.n_states_ : ℚ)) := by
    intro a b ha hb
    rw [CustomInitialize_transition ops h a b (by omega) (by omega),
      biasedWeight_rowsum_uniform h hn a (by omega)]
    rfl
  have off : ∀ a b : Nat, (a : Int) < h.n_states_ → (b : Int) < h.n_states_ → a ≠ b →
      (CustomInitialize ops h).p_transition_.get a b = 1 / (2 * (h.n_states_ : ℚ) - 1) := by
    intro a b ha hb hab
    rw [key a b ha hb, if_neg hab]
    field_simp
  refine ⟨key i j hi hj, ?_, fun hij => off i j hi hj hij, fun k hk hij hik => ?_⟩
  · rw [key j j hj hj, if_pos rfl]
    field_simp
  · rw [off i j hi hj hij, off i k hi hk hik]

/-- C20 on `threeStates`: the closed forms of the entries `(2, 2)` and `(1, 2)`,
and the equality of the off-diagonal entries `(1, 2)` and `(1, 0)`. -/
theorem C20_biased_closed_form_witness :
    (1 : Int) ≤ threeStates.n_states_ ∧
    (CustomInitialize unitOps threeStates).p_transition_.get 2 2
        = (threeStates.n_states_ : ℚ) / (2 * (threeStates.n_states_ : ℚ) - 1) ∧
    (CustomInitialize unitOps threeStates).p_transition_.get 1 2
        = 1 / (2 * (threeStates.n_states_ : ℚ) - 1) ∧
    (CustomInitialize unitOps threeStates).p_transition_.get 1 2
        = (CustomInitialize unitOps threeStates).p_transition_.get 1 0 :=
  ⟨by decide,
    (C20_biased_closed_form unitOps threeStates (by decide) 1 2 (by decide) (by decide)).2.1,
    (C20_biased_closed_form unitOps threeStates (by decide) 1 2 (by decide) (by decide)).2.2.1
      (by decide),
    (C20_biased_closed_form unitOps threeStates (by decide) 1 2 (by decide) (by decide)).2.2.2
      0 (by decide) (by decide) (by decide)⟩

/-! ## The trace of the sampling scan -/

theorem scanReads_some (m : Matrix) (u : ℚ) (c : Int) (j : Nat) :
    ∀ (fuel i : Nat), scan m u c fuel i = some j →
      scanReads m u c fuel i = List.range' i (j - i + 1) := by
  intro fuel
  induction fuel with
  | zero => intro i hs; simp [scan] at hs
  | succ fuel ih =>
    intro i hs
    have hle := (scan_some m u c j (fuel + 1) i hs).1
    rw [scan] at hs
    rw [scanReads]
    cases hg : m.get? (i : Int) c with
    | none => rw [hg] at hs; simp at hs
    | some x =>
      rw [hg] at hs
      simp only [] at hs ⊢
      by_cases hux : u > x
      · rw [if_pos hux] at hs
        rw [if_pos hux, ih (i + 1) hs]
        have hle' := (scan_some m u c j fuel (i + 1) hs).1
        have e : j - i + 1 = (j - (i + 1) + 1) + 1 := by omega
        rw [e]
        rfl
      · rw [if_neg hux] at hs
        simp only [Option.some.injEq] at hs
        subst hs
        rw [if_neg hux]
        simp

theorem scan_exhausted (m : Matrix) (u : ℚ) (c : Int) (hc0 : 0 ≤ c)
    (hc : c < (m.n_cols : Int)) :
    ∀ (fuel i : Nat), i ≤ m.n_rows → m.n_rows - i < fuel →
      (∀ k, i ≤ k → k < m.n_rows → m.elem k c.toNat < u) →
      scan m u c fuel i = none ∧
        scanReads m u c fuel i = List.range' i (m.n_rows - i + 1) := by
  intro fuel
  induction fuel with
  | zero => intro i _ hf; omega
  | succ fuel ih =>
    intro i hi hf hlt
    by_cases hin : i < m.n_rows
    · rw [scan, scanReads, get?_of_lt m i c hin hc0 hc]
      simp only []
      rw [if_pos (hlt i (le_refl i) hin), if_pos (hlt i (le_refl i) hin)]
      obtain ⟨h1, h2⟩ := ih (i + 1) (by omega) (by omega)
        (fun k hk hkn => hlt k (by omega) hkn)
      refine ⟨h1, ?_⟩
      have e : m.n_rows - i + 1 = (m.n_rows - (i + 1) + 1) + 1 := by omega
      rw [h2, e]
      rfl
    · have hg : m.get? (i : Int) c = none := by
        unfold Matrix.get?
        rw [if_neg (by omega)]
      have e : m.n_rows - i + 1 = 1 := by omega
      rw [scan, scanReads, hg, e]
      simp

theorem scan_bad_column (m : Matrix) (u : ℚ) (c : Int)
    (hc : c < 0 ∨ (m.n_cols : Int) ≤ c) (fuel i : Nat) :
    m.get? (i : Int) c = none ∧ scan m u c (fuel + 1) i = none ∧
      scanReads m u c (fuel + 1) i = [i] := by
  have hg : m.get? (i : Int) c = none := by
    unfold Matrix.get?
    rw [if_neg (by omega)]
  refine ⟨hg, ?_, ?_⟩
  · rw [scan, hg]
  · rw [scanReads, hg]

/-! ## Draws whose scan is exhausted or whose index is out of range -/

theorem DrawState_exhausted (h : HMM D) (hwf : WF h) (u : ℚ) (t : Nat)
    (ht : (t : Int) < h.T_)
    (hlt : ∀ i : Nat, (i : Int) < h.n_states_ →
      h.state_cumulative_probabilities_.get i t < u) :
    DrawState h u (t : Int) = none ∧
      DrawStateReads h u (t : Int) = List.range (h.n_states_.toNat + 1) := by
  have hr := hwf.cum_rows
  have hc := hwf.cum_cols
  have e : h.n_states_.toNat = h.state_cumulative_probabilities_.n_rows := by omega
  have := scan_exhausted h.state_cumulative_probabilities_ u (t : Int) (by omega) (by omega)
    (h.state_cumulative_probabilities_.n_rows + 1) 0 (Nat.zero_le _) (by omega)
    (fun k _ hk => by simpa [Matrix.get] using hlt k (by omega))
  rw [List.range_eq_range', e]
  exact this

theorem DrawStateGivenLastState_exhausted (h : HMM D) (hwf : WF h) (u : ℚ) (cur : Nat)
    (hcur : (cur : Int) < h.n_states_)
    (hlt : ∀ j : Nat, (j : Int) < h.n_states_ → h.cumulative_p_transition_.get j cur < u) :
    DrawStateGivenLastState h u (cur : Int) = none ∧
      DrawStateGivenLastStateReads h u (cur : Int) = List.range (h.n_states_.toNat + 1) := by
  have hr := hwf.ctrans_rows
  have hc := hwf.ctrans_cols
  have e : h.n_states_.toNat = h.cumulative_p_transition_.n_rows := by omega
  have := scan_exhausted h.cumulative_p_transition_ u (cur : Int) (by omega) (by omega)
    (h.cumulative_p_transition_.n_rows + 1) 0 (Nat.zero_le _) (by omega)
    (fun k _ hk => by simpa [Matrix.get] using hlt k (by omega))
  rw [List.range_eq_range', e]
  exact this

theorem uniformBase_tables_zero (i j : Nat) :
    uniformBase.cumulative_p_transition_.get i j = 0 ∧
      uniformBase.state_cumulative_probabilities_.get i j = 0 := by
  simp only [uniformBase, RandomlyInitialize_eq]
  exact ⟨rfl, rfl⟩

/-- C11 (counterexample): on the uniform two-state model whose derived tables
are not yet computed (all zero), the draw `u = 1/2` exceeds every entry of the
scanned column; neither draw returns the last state `1`: each scan reads rows
`0`, `1` and `2`, the last of which is past the last state, and ends there
without a state. -/
theorem C11_counterexample :
    (∀ j : Nat, j < 2 → uniformBase.cumulative_p_transition_.get j 0 < 1 / 2) ∧
    (∀ i : Nat, i < 2 → uniformBase.state_cumulative_probabilities_.get i 0 < 1 / 2) ∧
    DrawStateGivenLastState uniformBase (1 / 2) 0 ≠ some 1 ∧
    DrawStateGivenLastStateReads uniformBase (1 / 2) 0 = [0, 1, 2] ∧
    DrawState uniformBase (1 / 2) 0 ≠ some 1 ∧
    DrawStateReads uniformBase (1 / 2) 0 = [0, 1, 2] := by
  have hz : ∀ i j : Nat, uniformBase.cumulative_p_transition_.get i j < 1 / 2 ∧
      uniformBase.state_cumulative_probabilities_.get i j < 1 / 2 := by
    intro i j
    rw [(uniformBase_tables_zero i j).1, (uniformBase_tables_zero i j).2]
    norm_num
  have h1 := DrawStateGivenLastState_exhausted uniformBase uniformBase_WF (1 / 2) 0
    (by decide) (fun j _ => (hz j 0).1)
  have h2 := DrawState_exhausted uniformBase uniformBase_WF (1 / 2) 0
    (by decide) (fun i _ => (hz i 0).2)
  refine ⟨fun j _ => (hz j 0).1, fun i _ => (hz i 0).2, ?_, h1.2, ?_, h2.2⟩
  · have := h1.1
    intro hc
    rw [show DrawStateGivenLastState uniformBase (1 / 2) 0
      = DrawStateGivenLastState uniformBase (1 / 2) ((0 : Nat) : Int) from rfl, this] at hc
    exact Option.noConfusion hc
  · have := h2.1
    intro hc
    rw [show DrawState uniformBase (1 / 2) 0
      = DrawState uniformBase (1 / 2) ((0 : Nat) : Int) from rfl, this] at hc
    exact Option.noConfusion hc

/-- C11 (amended): the scan is not clamped.  On a model whose tables have the
sizes `Init` allocates, for a valid index and a draw `u` greater than every
entry of the scanned column, `DrawState` and `DrawStateGivenLastState` return
no state: the scan reads the rows `0, ..., n_states_`, the last of them past
the last state `n_states_ - 1` and outside the table. -/
theorem C11_scan_not_clamped (h : HMM D) (hwf : WF h) (u : ℚ) :
    (∀ t : Nat, (t : Int) < h.T_ →
      (∀ i : Nat, (i : Int) < h.n_states_ →
        h.state_cumulative_probabilities_.get i t < u) →
      DrawState h u (t : Int) = none ∧
        DrawStateReads h u (t : Int) = List.range (h.n_states_.toNat + 1)) ∧
    (∀ cur : Nat, (cur : Int) < h.n_states_ →
      (∀ j : Nat, (j : Int) < h.n_states_ → h.cumulative_p_transition_.get j cur < u) →
      DrawStateGivenLastState h u (cur : Int) = none ∧
        DrawStateGivenLastStateReads h u (cur : Int)
          = List.range (h.n_states_.toNat + 1)) :=
  ⟨fun t ht hlt => DrawState_exhausted h hwf u t ht hlt,
    fun cur hcur hlt => DrawStateGivenLastState_exhausted h hwf u cur hcur hlt⟩

/-- C11 (amended) on the uniform two-state model before its derived tables are
computed, with `u = 1/2`. -/
theorem C11_scan_not_clamped_witness :
    WF uniformBase ∧
    (DrawState uniformBase (1 / 2) ((0 : Nat) : Int) = none ∧
      DrawStateReads uniformBase (1 / 2) ((0 : Nat) : Int)
        = List.range (uniformBase.n_states_.toNat + 1)) ∧
    (DrawStateGivenLastState uniformBase (1 / 2) ((0 : Nat) : Int) = none ∧
      DrawStateGivenLastStateReads uniformBase (1 / 2) ((0 : Nat) : Int)
        = List.range (uniformBase.n_states_.toNat + 1)) :=
  ⟨uniformBase_WF,
    (C11_scan_not_clamped uniformBase uniformBase_WF (1 / 2)).1 0 (by decide)
      (fun i _ => by rw [(uniformBase_tables_zero i 0).2]; norm_num),
    (C11_scan_not_clamped uniformBase uniformBase_WF (1 / 2)).2 0 (by decide)
      (fun j _ => by rw [(uniformBase_tables_zero j 0).1]; norm_num)⟩

theorem DrawState_bad_index (h : HMM D) (hwf : WF h) (u : ℚ) (t : Int)
    (ht : t < 0 ∨ h.T_ ≤ t) :
    h.state_cumulative_probabilities_.get? ((0 : Nat) : Int) t = none ∧
      DrawState h u t = none ∧ DrawStateReads h u t = [0] :=
  scan_bad_column h.state_cumulative_probabilities_ u t
    (by have := hwf.cum_cols; omega) _ 0

theorem DrawStateGivenLastState_bad_index (h : HMM D) (hwf : WF h) (u : ℚ) (i : Int)
    (hi : i < 0 ∨ h.n_states_ ≤ i) :
    h.cumulative_p_transition_.get? ((0 : Nat) : Int) i = none ∧
      DrawStateGivenLastState h u i = none ∧ DrawStateGivenLastStateReads h u i = [0] :=
  scan_bad_column h.cumulative_p_transition_ u i
    (by have := hwf.ctrans_cols; omega) _ 0

/-- C12 (counterexample): on `sampleModel` (three states, horizon one) the time
index `1` and the state index `3` are out of range, yet neither draw rejects
its index before the table is consulted: each reads row `0` of the column with
that index, a cell outside the table. -/
theorem C12_counterexample :
    ¬ ((0 : Int) ≤ 1 ∧ (1 : Int) < sampleModel.T_) ∧
    ¬ ((0 : Int) ≤ 3 ∧ (3 : Int) < sampleModel.n_states_) ∧
    DrawStateReads sampleModel (1 / 10) 1 = [0] ∧
    sampleModel.state_cumulative_probabilities_.get? 0 1 = none ∧
    DrawStateReads sampleModel (1 / 10) 1 ≠ DrawStateSpecReads sampleModel (1 / 10) 1 ∧
    DrawStateGivenLastStateReads sampleModel (1 / 10) 3 = [0] ∧
    sampleModel.cumulative_p_transition_.get? 0 3 = none ∧
    DrawStateGivenLastStateReads sampleModel (1 / 10) 3
      ≠ DrawStateGivenLastStateSpecReads sampleModel (1 / 10) 3 := by
  have h1 := DrawState_bad_index sampleModel sampleModel_WF (1 / 10) 1 (Or.inr (by decide))
  have h2 := DrawStateGivenLastState_bad_index sampleModel sampleModel_WF (1 / 10) 3
    (Or.inr (by decide))
  have n1 : ¬ ((0 : Int) ≤ 1 ∧ (1 : Int) < sampleModel.T_) := by decide
  have n2 : ¬ ((0 : Int) ≤ 3 ∧ (3 : Int) < sampleModel.n_states_) := by decide
  refine ⟨n1, n2, h1.2.2, h1.1, ?_, h2.2.2, h2.1, ?_⟩
  · rw [h1.2.2, DrawStateSpecReads, if_neg n1]
    simp
  · rw [h2.2.2, DrawStateGivenLastStateSpecReads, if_neg n2]
    simp

/-- C12 (amended): the draw functions do not check their index.  On a model
whose tables have the sizes `Init` allocates, for `t` outside `[0, T_)`,
`DrawState(t)`, and for `i` outside `[0, n_states_)`,
`DrawStateGivenLastState(i)`, hands the index to the table read: the one read
of the scan, of row `0` of that column, is outside the table, and the call
ends there without a state. -/
theorem C12_index_not_checked (h : HMM D) (hwf : WF h) (u : ℚ) :
    (∀ t : Int, t < 0 ∨ h.T_ ≤ t →
      h.state_cumulative_probabilities_.get? ((0 : Nat) : Int) t = none ∧
        DrawState h u t = none ∧ DrawStateReads h u t = [0]) ∧
    (∀ i : Int, i < 0 ∨ h.n_states_ ≤ i →
      h.cumulative_p_transition_.get? ((0 : Nat) : Int) i = none ∧
        DrawStateGivenLastState h u i = none ∧ DrawStateGivenLastStateReads h u i = [0]) :=
  ⟨fun t ht => DrawState_bad_index h hwf u t ht,
    fun i hi => DrawStateGivenLastState_bad_index h hwf u i hi⟩

/-- C12 (amended) on `sampleModel`, at the time index `-1` and the state index
`3`. -/
theorem C12_index_not_checked_witness :
    WF sampleModel ∧
    (sampleModel.state_cumulative_probabilities_.get? ((0 : Nat) : Int) (-1) = none ∧
      DrawState sampleModel (1 / 10) (-1) = none ∧
      DrawStateReads sampleModel (1 / 10) (-1) = [0]) ∧
    (sampleModel.cumulative_p_transition_.get? ((0 : Nat) : Int) 3 = none ∧
      DrawStateGivenLastState sampleModel (1 / 10) 3 = none ∧
      DrawStateGivenLastStateReads sampleModel (1 / 10) 3 = [0]) :=
  ⟨sampleModel_WF,
    (C12_index_not_checked sampleModel sampleModel_WF (1 / 10)).1 (-1) (Or.inl (by decide)),
    (C12_index_not_checked sampleModel sampleModel_WF (1 / 10)).2 3 (Or.inr (by decide))⟩

theorem Init_sizes (ops : DistributionOps D) (n d T : Int) :
    (Init ops n d T).n_states_ = n ∧ (Init ops n d T).n_dims_ = d ∧
      (Init ops n d T).T_ = T :=
  ⟨rfl, rfl, rfl⟩

/-- C13 (counterexample): `Init(2, 1, 0)` has horizon `0`, so the spec has the
construction fail; the source builds a model, with the sizes `2`, `1`, `0`
stored and marginal tables of no column. -/
theorem C13_counterexample :
    InitSpec unitOps 2 1 0 = none ∧
    InitSpec unitOps 2 1 0 ≠ some (Init unitOps 2 1 0) ∧
    (Init unitOps 2 1 0).n_states_ = 2 ∧ (Init unitOps 2 1 0).n_dims_ = 1 ∧
    (Init unitOps 2 1 0).T_ = 0 ∧
    (Init unitOps 2 1 0).state_probabilities_.n_rows = 2 ∧
    (Init unitOps 2 1 0).state_probabilities_.n_cols = 0 := by
  refine ⟨rfl, ?_, rfl, rfl, rfl, rfl, rfl⟩
  intro hc
  exact Option.noConfusion (show (none : Option (HMM Unit)) = some _ from hc)

/-- C13 (amended): `Init` rejects no size.  For every `stateCount`, `dimCount`
and `horizon`, non-positive ones included, it builds a model with the three
sizes stored unchanged; when all three are positive this is the construction
the spec describes, and the tables have the sizes `stateCount`,
`stateCount × stateCount` and `stateCount × horizon`. -/
theorem C13_Init_no_validation (ops : DistributionOps D) (n d T : Int) :
    ((Init ops n d T).n_states_ = n ∧ (Init ops n d T).n_dims_ = d ∧
      (Init ops n d T).T_ = T) ∧
    (0 < n → 0 < d → 0 < T →
      InitSpec ops n d T = some (Init ops n d T) ∧ WF (Init ops n d T)) := by
  refine ⟨Init_sizes ops n d T, fun hn hd hT => ⟨?_, WF_Init ops n d T (by omega) (by omega)⟩⟩
  unfold InitSpec
  rw [if_neg (by omega)]

/-- C13 (amended) on the sizes `(2, 1, 3)`, all positive, and on `(2, 1, 0)`. -/
theorem C13_Init_no_validation_witness :
    (InitSpec unitOps 2 1 3 = some (Init unitOps 2 1 3) ∧ WF (Init unitOps 2 1 3)) ∧
    ((Init unitOps 2 1 0).n_states_ = 2 ∧ (Init unitOps 2 1 0).n_dims_ = 1 ∧
      (Init unitOps 2 1 0).T_ = 0) :=
  ⟨(C13_Init_no_validation unitOps 2 1 3).2 (by decide) (by decide) (by decide),
    (C13_Init_no_validation unitOps 2 1 0).1⟩

/-! ## Draws leave the object as it is -/

theorem scanObject_eq (tbl : HMM D → Matrix) (u : ℚ) (c : Int) (h : HMM D) :
    ∀ (fuel i : Nat),
      scanObject tbl u c fuel h i = (scan (tbl h) u c fuel i).map (fun r => (r, h)) := by
  intro fuel
  induction fuel with
  | zero => intro i; rfl
  | succ fuel ih =>
    intro i
    rw [scanObject, scan]
    cases (tbl h).get? (i : Int) c with
    | none => rfl
    | some x =>
      simp only []
      split_ifs
      · exact ih (i + 1)
      · rfl

theorem DrawStateCall_eq (h : HMM D) (u : ℚ) (t : Int) :
    DrawStateCall h u t = (DrawState h u t).map (fun r => (r, h)) :=
  scanObject_eq _ u t h _ 0

theorem DrawStateGivenLastStateCall_eq (h : HMM D) (u : ℚ) (i : Int) :
    DrawStateGivenLastStateCall h u i = (DrawStateGivenLastState h u i).map (fun r => (r, h)) :=
  scanObject_eq _ u i h _ 0

theorem map_pair_some {α β : Type} (o : Option α) (b b' : β) (a : α)
    (hs : o.map (fun r => (r, b)) = some (a, b')) : b' = b ∧ o = some a := by
  cases o with
  | none => simp at hs
  | some x =>
    simp only [Option.map_some', Option.some.injEq, Prod.mk.injEq] at hs
    exact ⟨hs.2.symm, by rw [hs.1]⟩

/-- C17: whenever `DrawState` or `DrawStateGivenLastState` returns, the object
after the call is the object before it: every stored field (the sizes,
`p_initial_`, `p_transition_`, the distributions and the three derived tables)
is unchanged; the state returned is the one `DrawState`, respectively
`DrawStateGivenLastState`, computes. -/
theorem C17_draws_pure (h : HMM D) (u : ℚ) (idx : Int) (r : Nat) (h' : HMM D) :
    (DrawStateCall h u idx = some (r, h') → h' = h ∧ DrawState h u idx = some r) ∧
    (DrawStateGivenLastStateCall h u idx = some (r, h') →
      h' = h ∧ DrawStateGivenLastState h u idx = some r) := by
  constructor
  · intro hs
    rw [DrawStateCall_eq] at hs
    exact map_pair_some _ _ _ _ hs
  · intro hs
    rw [DrawStateGivenLastStateCall_eq] at hs
    exact map_pair_some _ _ _ _ hs

theorem sampleModel_call :
    DrawStateCall sampleModel (1 / 4) 0 = some (1, sampleModel) := by
  rw [DrawStateCall_eq]
  have := DrawState_eq_some sampleModel sampleModel_WF (1 / 4) 0 1 (by decide) (by decide)
    (by rw [sampleModel_cumulative.2.1]; norm_num)
    (fun k hk => by
      interval_cases k
      rw [sampleModel_cumulative.1]; norm_num)
  rw [show DrawState sampleModel (1 / 4) 0 = DrawState sampleModel (1 / 4) ((0 : Nat) : Int)
    from rfl, this]
  rfl

theorem uniformSampler_call :
    DrawStateGivenLastStateCall uniformSampler (3 / 4) 0 = some (1, uniformSampler) := by
  rw [DrawStateGivenLastStateCall_eq]
  have := (DrawStateGivenLastState_interval uniformBase uniformBase_WF uniformBase_nonneg
    (3 / 4) 0 1 (by decide) (by decide)).mpr
    ⟨Or.inr (by
        rw [Finset.sum_range_one, uniformBase_transition 0 0 (by decide) (by decide)]
        norm_num),
      by
        rw [Finset.sum_range_succ, Finset.sum_range_one,
          uniformBase_transition 0 0 (by decide) (by decide),
          uniformBase_transition 0 1 (by decide) (by decide)]
        norm_num⟩
  rw [show DrawStateGivenLastState uniformSampler (3 / 4) 0
    = DrawStateGivenLastState (ComputeCumulativePTransition uniformBase) (3 / 4)
        ((0 : Nat) : Int) from rfl, this]
  rfl

/-- C17 on `sampleModel` (`DrawState(0)` with `u = 0.25`) and on the uniform
two-state model (`DrawStateGivenLastState(0)` with `u = 0.75`). -/
theorem C17_draws_pure_witness :
    (DrawStateCall sampleModel (1 / 4) 0 = some (1, sampleModel) ∧
      (sampleModel = sampleModel ∧ DrawState sampleModel (1 / 4) 0 = some 1)) ∧
    (DrawStateGivenLastStateCall uniformSampler (3 / 4) 0 = some (1, uniformSampler) ∧
      (uniformSampler = uniformSampler ∧
        DrawStateGivenLastState uniformSampler (3 / 4) 0 = some 1)) :=
  ⟨⟨sampleModel_call,
      (C17_draws_pure sampleModel (1 / 4) 0 1 sampleModel).1 sampleModel_call⟩,
    ⟨uniformSampler_call,
      (C17_draws_pure uniformSampler (3 / 4) 0 1 uniformSampler).2 uniformSampler_call⟩⟩

/-! ## Draws on a valid model -/

theorem ComputeStateProbabilities_frame (h : HMM D) :
    (ComputeStateProbabilities h).n_states_ = h.n_states_ ∧
    (ComputeStateProbabilities h).n_dims_ = h.n_dims_ ∧
    (ComputeStateProbabilities h).T_ = h.T_ ∧
    (ComputeStateProbabilities h).p_initial_ = h.p_initial_ ∧
    (ComputeStateProbabilities h).p_transition_ = h.p_transition_ ∧
    (ComputeStateProbabilities h).state_distributions_ = h.state_distributions_ ∧
    (ComputeStateProbabilities h).cumulative_p_transition_ = h.cumulative_p_transition_ := by
  rw [ComputeStateProbabilities_eq]
  exact ⟨rfl, rfl, rfl, rfl, rfl, rfl, rfl⟩

theorem marginal_nonneg (h : HMM D)
    (hinit : ∀ i, i < h.n_states_.toNat → 0 ≤ h.p_initial_.get i)
    (htr : ∀ i k, i < h.n_states_.toNat → k < h.n_states_.toNat →
      0 ≤ h.p_transition_.get i k) (t : Nat) :
    ∀ j, j < h.n_states_.toNat → 0 ≤ marginal h t j := by
  induction t with
  | zero => exact fun j hj => hinit j hj
  | succ t ih =>
    intro j hj
    simp only [marginal]
    exact Finset.sum_nonneg (fun i hi =>
      mul_nonneg (ih i (Finset.mem_range.mp hi)) (htr i j (Finset.mem_range.mp hi) hj))

theorem scan_in_range (m : Matrix) (u : ℚ) (c : Nat) (hc : c < m.n_cols)
    (hrows : 0 < m.n_rows) (hlast : u ≤ m.get (m.n_rows - 1) c) :
    ∃ i : Nat, scan m u (c : Int) (m.n_rows + 1) 0 = some i ∧ i < m.n_rows ∧
      ∀ r ∈ scanReads m u (c : Int) (m.n_rows + 1) 0, r < m.n_rows := by
  obtain ⟨i, h1, h2, -, -⟩ := scan_least m u c hc ⟨m.n_rows - 1, by omega, hlast⟩
  refine ⟨i, h1, h2, fun r hr => ?_⟩
  rw [scanReads_some m u (c : Int) i _ 0 h1, List.mem_range'_1] at hr
  omega

theorem prepared_marginal_table (h : HMM D) (i t : Nat)
    (hi : i < h.n_states_.toNat) (ht : t < h.T_.toNat) :
    (ComputeCumulativePTransition
        (ComputeStateProbabilities h)).state_cumulative_probabilities_.get i t
      = ∑ k in Finset.range (i + 1), marginal h t k := by
  rw [(ComputeCumulativePTransition_frame _).2.2.2.2.2.2.2,
    ComputeStateProbabilities_cumulative h i t hi ht]
  refine Finset.sum_congr rfl (fun k hk => ?_)
  rw [Finset.mem_range] at hk
  exact ComputeStateProbabilities_probs h k t (by omega) (Or.inr ht)

theorem prepared_transition_table (h : HMM D) (cur j : Nat)
    (hcur : cur < h.n_states_.toNat) (hj : j < h.n_states_.toNat) :
    (ComputeCumulativePTransition
        (ComputeStateProbabilities h)).cumulative_p_transition_.get j cur
      = ∑ k in Finset.range (j + 1), h.p_transition_.get cur k := by
  have e := (ComputeStateProbabilities_frame h).1
  rw [ComputeCumulativePTransition_table (ComputeStateProbabilities h) cur j
    (by rw [e]; exact hcur) (by rw [e]; exact hj),
    (ComputeStateProbabilities_frame h).2.2.2.2.1]

theorem prepared_marginal_column (h : HMM D) (hn : 1 ≤ h.n_states_)
    (hinit_nn : ∀ i : Nat, (i : Int) < h.n_states_ → 0 ≤ h.p_initial_.get i)
    (htr_nn : ∀ i k : Nat, (i : Int) < h.n_states_ → (k : Int) < h.n_states_ →
      0 ≤ h.p_transition_.get i k)
    (hinit : ∑ i in Finset.range h.n_states_.toNat, h.p_initial_.get i = 1)
    (hrow : ∀ i : Nat, (i : Int) < h.n_states_ →
      ∑ j in Finset.range h.n_states_.toNat, h.p_transition_.get i j = 1)
    (t : Nat) (ht : (t : Int) < h.T_) :
    (∀ i j : Nat, i ≤ j → (j : Int) < h.n_states_ →
      (ComputeCumulativePTransition
          (ComputeStateProbabilities h)).state_cumulative_probabilities_.get i t
        ≤ (ComputeCumulativePTransition
          (ComputeStateProbabilities h)).state_cumulative_probabilities_.get j t) ∧
    (ComputeCumulativePTransition
        (ComputeStateProbabilities h)).state_cumulative_probabilities_.get
      (h.n_states_.toNat - 1) t = 1 := by
  have hnn := marginal_nonneg h (fun i hi => hinit_nn i (by omega))
    (fun i k hi hk => htr_nn i k (by omega) (by omega)) t
  constructor
  · intro i j hij hj
    rw [prepared_marginal_table h i t (by omega) (by omega),
      prepared_marginal_table h j t (by omega) (by omega)]
    exact prefix_sum_mono (fun k => marginal h t k) h.n_states_.toNat hnn (i + 1) (j + 1)
      (by omega) (by omega)
  · rw [prepared_marginal_table h _ t (by omega) (by omega)]
    have e : h.n_states_.toNat - 1 + 1 = h.n_states_.toNat := by omega
    rw [e]
    exact marginal_sum h hinit (fun i hi => hrow i (by omega)) t

theorem prepared_transition_column (h : HMM D) (hn : 1 ≤ h.n_states_)
    (htr_nn : ∀ i k : Nat, (i : Int) < h.n_states_ → (k : Int) < h.n_states_ →
      0 ≤ h.p_transition_.get i k)
    (hrow : ∀ i : Nat, (i : Int) < h.n_states_ →
      ∑ j in Finset.range h.n_states_.toNat, h.p_transition_.get i j = 1)
    (cur : Nat) (hcur : (cur : Int) < h.n_states_) :
    (∀ i j : Nat, i ≤ j → (j : Int) < h.n_states_ →
      (ComputeCumulativePTransition
          (ComputeStateProbabilities h)).cumulative_p_transition_.get i cur
        ≤ (ComputeCumulativePTransition
          (ComputeStateProbabilities h)).cumulative_p_transition_.get j cur) ∧
    (ComputeCumulativePTransition
        (ComputeStateProbabilities h)).cumulative_p_transition_.get
      (h.n_states_.toNat - 1) cur = 1 := by
  constructor
  · intro i j hij hj
    rw [prepared_transition_table h cur i (by omega) (by omega),
      prepared_transition_table h cur j (by omega) (by omega)]
    exact prefix_sum_mono (fun k => h.p_transition_.get cur k) h.n_states_.toNat
      (fun k hk => htr_nn cur k hcur (by omega)) (i + 1) (j + 1) (by omega) (by omega)
  · rw [prepared_transition_table h cur _ (by omega) (by omega)]
    have e : h.n_states_.toNat - 1 + 1 = h.n_states_.toNat := by omega
    rw [e]
    exact hrow cur hcur

theorem prepared_WF (h : HMM D) (hwf : WF h) :
    WF (ComputeCumulativePTransition (ComputeStateProbabilities h)) ∧
    (ComputeCumulativePTransition (ComputeStateProbabilities h)).n_states_ = h.n_states_ ∧
    (ComputeCumulativePTransition (ComputeStateProbabilities h)).T_ = h.T_ :=
  ⟨WF_ComputeCumulativePTransition _ (WF_ComputeStateProbabilities h hwf),
    (ComputeCumulativePTransition_frame _).1.trans (ComputeStateProbabilities_frame h).1,
    (ComputeCumulativePTransition_frame _).2.2.1.trans (ComputeStateProbabilities_frame h).2.2.1⟩

theorem prepared_DrawState (h : HMM D) (hwf : WF h) (hn : 1 ≤ h.n_states_)
    (u : ℚ) (t : Nat) (ht : (t : Int) < h.T_)
    (hlast : u ≤ (ComputeCumulativePTransition
        (ComputeStateProbabilities h)).state_cumulative_probabilities_.get
      (h.n_states_.toNat - 1) t) :
    ∃ i : Nat,
      DrawState (ComputeCumulativePTransition (ComputeStateProbabilities h)) u (t : Int)
        = some i ∧ (i : Int) < h.n_states_ ∧
      ∀ r ∈ DrawStateReads (ComputeCumulativePTransition (ComputeStateProbabilities h)) u
        (t : Int), (r : Int) < h.n_states_ := by
  obtain ⟨hwf', en, eT⟩ := prepared_WF h hwf
  have hr := hwf'.cum_rows
  have hc := hwf'.cum_cols
  rw [en] at hr
  rw [eT] at hc
  have e : (ComputeCumulativePTransition
      (ComputeStateProbabilities h)).state_cumulative_probabilities_.n_rows - 1
        = h.n_states_.toNat - 1 := by omega
  obtain ⟨i, h1, h2, h3⟩ := scan_in_range
    (ComputeCumulativePTransition (ComputeStateProbabilities h)).state_cumulative_probabilities_
    u t (by omega) (by omega) (by rw [e]; exact hlast)
  exact ⟨i, h1, by omega, fun r hr' => by have := h3 r hr'; omega⟩

theorem prepared_DrawStateGivenLastState (h : HMM D) (hwf : WF h) (hn : 1 ≤ h.n_states_)
    (u : ℚ) (cur : Nat) (hcur : (cur : Int) < h.n_states_)
    (hlast : u ≤ (ComputeCumulativePTransition
        (ComputeStateProbabilities h)).cumulative_p_transition_.get
      (h.n_states_.toNat - 1) cur) :
    ∃ j : Nat,
      DrawStateGivenLastState (ComputeCumulativePTransition (ComputeStateProbabilities h)) u
        (cur : Int) = some j ∧ (j : Int) < h.n_states_ ∧
      ∀ r ∈ DrawStateGivenLastStateReads
        (ComputeCumulativePTransition (ComputeStateProbabilities h)) u (cur : Int),
        (r : Int) < h.n_states_ := by
  obtain ⟨hwf', en, -⟩ := prepared_WF h hwf
  have hr := hwf'.ctrans_rows
  have hc := hwf'.ctrans_cols
  rw [en] at hr hc
  have e : (ComputeCumulativePTransition
      (ComputeStateProbabilities h)).cumulative_p_transition_.n_rows - 1
        = h.n_states_.toNat - 1 := by omega
  obtain ⟨j, h1, h2, h3⟩ := scan_in_range
    (ComputeCumulativePTransition (ComputeStateProbabilities h)).cumulative_p_transition_
    u cur (by omega) (by omega) (by rw [e]; exact hlast)
  exact ⟨j, h1, by omega, fun r hr' => by have := h3 r hr'; omega⟩

theorem chainModel_WF : WF chainModel :=
  ⟨rfl, rfl, rfl, rfl, rfl, rfl, rfl, rfl, rfl⟩

theorem chainModel_initial_nonneg (i : Nat) (_hi : (i : Int) < chainModel.n_states_) :
    0 ≤ chainModel.p_initial_.get i := by
  simp only [chainModel, Vector.get]
  split_ifs <;> norm_num

theorem chainModel_transition_nonneg (i k : Nat) (_hi : (i : Int) < chainModel.n_states_)
    (_hk : (k : Int) < chainModel.n_states_) : 0 ≤ chainModel.p_transition_.get i k := by
  simp only [chainModel, Matrix.get]
  split_ifs <;> norm_num

theorem chainModel_initial_sum :
    ∑ i in Finset.range chainModel.n_states_.toNat, chainModel.p_initial_.get i = 1 := by
  simp [chainModel, Vector.get, Finset.sum_range_succ]
  norm_num

theorem chainModel_rows (i : Nat) (hi : (i : Int) < chainModel.n_states_) :
    ∑ j in Finset.range chainModel.n_states_.toNat, chainModel.p_transition_.get i j = 1 := by
  have hi2 : i < 2 := by simpa [chainModel] using hi
  interval_cases i <;>
    simp [chainModel, Matrix.get, Finset.sum_range_succ] <;> norm_num

/-! ## Closed forms and frames in rounded arithmetic -/

theorem RandomlyInitializeRounded_id (ops : DistributionOps D) (h : HMM D) :
    RandomlyInitializeRounded id ops h = RandomlyInitialize ops h := rfl

theorem ComputeCumulativePTransitionRounded_id (h : HMM D) :
    ComputeCumulativePTransitionRounded id h = ComputeCumulativePTransition h := rfl

theorem ComputeStateProbabilitiesRounded_id (h : HMM D) :
    ComputeStateProbabilitiesRounded id h = ComputeStateProbabilities h := rfl

theorem forLoop_invariant {σ : Type} (P : σ → Prop) (lo hi : Nat) (body : Nat → σ → σ)
    (s : σ) (h0 : P s) (hstep : ∀ i s, P s → P (body i s)) : P (forLoop lo hi body s) := by
  unfold forLoop
  generalize List.range' lo (hi - lo) = l
  induction l generalizing s with
  | nil => exact h0
  | cons a l ih => exact ih (body a s) (hstep a s h0)

theorem RandomlyInitializeRounded_eq (rnd : ℚ → ℚ) (ops : DistributionOps D) (h : HMM D) :
    RandomlyInitializeRounded rnd ops h
      = afterRandomlyInitialize ops h (rnd (1 / (h.n_states_ : ℚ))) h.n_states_.toNat :=
  RandomlyInitialize_loop ops h _ _

theorem cumulativeRowRounded_loop (rnd : ℚ → ℚ) (h : HMM D) (i : Nat) (m : Nat) :
    forLoop 0 m (fun j (s : HMM D × ℚ) =>
      let cumsum := rnd (s.2 + s.1.p_transition_.get i j)
      ({ s.1 with cumulative_p_transition_ :=
          s.1.cumulative_p_transition_.set j i cumsum }, cumsum)) (h, 0)
      = ({ h with cumulative_p_transition_ := ⟨h.cumulative_p_transition_.n_rows,
            h.cumulative_p_transition_.n_cols,
            fun r c => if r < m ∧ c = i then
                roundedPrefix rnd (fun x => h.p_transition_.elem i x) (r + 1)
              else h.cumulative_p_transition_.elem r c⟩ },
          roundedPrefix rnd (fun x => h.p_transition_.elem i x) m) := by
  induction m with
  | zero => simp [forLoop, roundedPrefix]
  | succ k ih =>
    rw [forLoop_succ _ _ _ _ (Nat.zero_le k), ih]
    simp only [Matrix.get, Matrix.set]
    refine Prod.ext ?_ rfl
    ext : 1 <;> try rfl
    ext r c <;> try rfl
    simp only []
    split_ifs with h1 h2 h3 h4 <;>
      first
      | rfl
      | (exfalso; omega)
      | (obtain ⟨rfl, rfl⟩ := h1; rfl)

theorem ComputeCumulativePTransitionRounded_loop (rnd : ℚ → ℚ) (h : HMM D) (k : Nat) :
    forLoop 0 k (fun i h =>
      let cumsum : ℚ := 0
      (forLoop 0 h.n_states_.toNat (fun j (s : HMM D × ℚ) =>
        let cumsum := rnd (s.2 + s.1.p_transition_.get i j)
        ({ s.1 with cumulative_p_transition_ :=
            s.1.cumulative_p_transition_.set j i cumsum }, cumsum)) (h, cumsum)).1) h
      = afterCumulativePTransitionRounded rnd h k := by
  induction k with
  | zero =>
    rw [forLoop_of_le _ _ _ _ (Nat.le_refl 0)]
    simp [afterCumulativePTransitionRounded]
  | succ k ih =>
    rw [forLoop_succ _ _ _ _ (Nat.zero_le k), ih]
    simp only [cumulativeRowRounded_loop]
    simp only [afterCumulativePTransitionRounded]
    ext : 1 <;> try rfl
    ext r c <;> try rfl
    simp only []
    split_ifs with h1 h2 <;>
      first | rfl | (exfalso; omega) | (rw [h1.2])

theorem ComputeCumulativePTransitionRounded_eq (rnd : ℚ → ℚ) (h : HMM D) :
    ComputeCumulativePTransitionRounded rnd h
      = afterCumulativePTransitionRounded rnd h h.n_states_.toNat :=
  ComputeCumulativePTransitionRounded_loop rnd h _

theorem ComputeCumulativePTransitionRounded_table (rnd : ℚ → ℚ) (h : HMM D) (cur j : Nat)
    (hcur : cur < h.n_states_.toNat) (hj : j < h.n_states_.toNat) :
    (ComputeCumulativePTransitionRounded rnd h).cumulative_p_transition_.get j cur
      = roundedPrefix rnd (fun k => h.p_transition_.get cur k) (j + 1) := by
  rw [ComputeCumulativePTransitionRounded_eq]
  simp only [afterCumulativePTransitionRounded, Matrix.get]
  rw [if_pos ⟨hj, hcur⟩]

theorem ComputeCumulativePTransitionRounded_frame (rnd : ℚ → ℚ) (h : HMM D) :
    (ComputeCumulativePTransitionRounded rnd h).n_states_ = h.n_states_ ∧
    (ComputeCumulativePTransitionRounded rnd h).T_ = h.T_ ∧
    (ComputeCumulativePTransitionRounded rnd h).p_transition_ = h.p_transition_ ∧
    (ComputeCumulativePTransitionRounded rnd h).state_cumulative_probabilities_
      = h.state_cumulative_probabilities_ := by
  rw [ComputeCumulativePTransitionRounded_eq]
  exact ⟨rfl, rfl, rfl, rfl⟩

theorem WF_ComputeCumulativePTransitionRounded (rnd : ℚ → ℚ) (h : HMM D) (hwf : WF h) :
    WF (ComputeCumulativePTransitionRounded rnd h) := by
  rw [ComputeCumulativePTransitionRounded_eq]
  exact ⟨hwf.1, hwf.2, hwf.3, hwf.4, hwf.5, hwf.6, hwf.7, hwf.8, hwf.9⟩

theorem sameParameters_refl (h : HMM D) : sameParameters h h :=
  ⟨rfl, rfl, rfl, rfl, rfl, rfl, rfl, rfl, rfl, rfl, rfl⟩

theorem sameParameters_probabilities (h g : HMM D) (hg : sameParameters h g) (r c : Nat)
    (x : ℚ) :
    sameParameters h { g with state_probabilities_ := g.state_probabilities_.set r c x } :=
  ⟨hg.1, hg.2.1, hg.2.2.1, hg.2.2.2.1, hg.2.2.2.2.1, hg.2.2.2.2.2.1, hg.2.2.2.2.2.2.1,
    hg.2.2.2.2.2.2.2.1, hg.2.2.2.2.2.2.2.2.1, hg.2.2.2.2.2.2.2.2.2.1,
    hg.2.2.2.2.2.2.2.2.2.2⟩

theorem sameParameters_cumulative (h g : HMM D) (hg : sameParameters h g) (r c : Nat)
    (x : ℚ) :
    sameParameters h { g with state_cumulative_probabilities_ :=
      g.state_cumulative_probabilities_.set r c x } :=
  ⟨hg.1, hg.2.1, hg.2.2.1, hg.2.2.2.1, hg.2.2.2.2.1, hg.2.2.2.2.2.1, hg.2.2.2.2.2.2.1,
    hg.2.2.2.2.2.2.2.1, hg.2.2.2.2.2.2.2.2.1, hg.2.2.2.2.2.2.2.2.2.1,
    hg.2.2.2.2.2.2.2.2.2.2⟩

theorem ComputeStateProbabilitiesRounded_frame (rnd : ℚ → ℚ) (h : HMM D) :
    sameParameters h (ComputeStateProbabilitiesRounded rnd h) := by
  unfold ComputeStateProbabilitiesRounded
  simp only []
  refine forLoop_invariant (sameParameters h) _ _ _ _ ?_ ?_
  · refine forLoop_invariant (sameParameters h) _ _ _ _ ?_ ?_
    · exact forLoop_invariant (sameParameters h) _ _ _ _ (sameParameters_refl h)
        (fun j g hg => sameParameters_probabilities h g hg _ _ _)
    · exact fun t g hg => forLoop_invariant (sameParameters h) _ _ _ _ hg
        (fun j g hg => sameParameters_probabilities h g hg _ _ _)
  · exact fun t g hg => forLoop_invariant (fun s : HMM D × ℚ => sameParameters h s.1) _ _ _ _
      hg (fun i s hs => sameParameters_cumulative h s.1 hs _ _ _)

theorem WF_ComputeStateProbabilitiesRounded (rnd : ℚ → ℚ) (h : HMM D) (hwf : WF h) :
    WF (ComputeStateProbabilitiesRounded rnd h) := by
  obtain ⟨e1, -, e3, e4, e5, -, e7, e8, e9, e10, e11⟩ :=
    ComputeStateProbabilitiesRounded_frame rnd h
  exact ⟨by rw [e4, e1]; exact hwf.1, by rw [e5, e1]; exact hwf.2,
    by rw [e5, e1]; exact hwf.3, by rw [e8, e1]; exact hwf.4, by rw [e9, e3]; exact hwf.5,
    by rw [e10, e1]; exact hwf.6, by rw [e11, e3]; exact hwf.7,
    by rw [e7, e1]; exact hwf.8, by rw [e7, e1]; exact hwf.9⟩

theorem preparedRounded_WF (rnd : ℚ → ℚ) (h : HMM D) (hwf : WF h) :
    WF (ComputeCumulativePTransitionRounded rnd (ComputeStateProbabilitiesRounded rnd h)) ∧
    (ComputeCumulativePTransitionRounded rnd
      (ComputeStateProbabilitiesRounded rnd h)).n_states_ = h.n_states_ ∧
    (ComputeCumulativePTransitionRounded rnd
      (ComputeStateProbabilitiesRounded rnd h)).T_ = h.T_ :=
  ⟨WF_ComputeCumulativePTransitionRounded rnd _ (WF_ComputeStateProbabilitiesRounded rnd h hwf),
    (ComputeCumulativePTransitionRounded_frame rnd _).1.trans
      (ComputeStateProbabilitiesRounded_frame rnd h).1,
    (ComputeCumulativePTransitionRounded_frame rnd _).2.1.trans
      (ComputeStateProbabilitiesRounded_frame rnd h).2.2.1⟩

theorem preparedRounded_table (rnd : ℚ → ℚ) (h : HMM D) (cur j : Nat)
    (hcur : cur < h.n_states_.toNat) (hj : j < h.n_states_.toNat) :
    (ComputeCumulativePTransitionRounded rnd
        (ComputeStateProbabilitiesRounded rnd h)).cumulative_p_transition_.get j cur
      = roundedPrefix rnd (fun k => h.p_transition_.get cur k) (j + 1) := by
  have e := (ComputeStateProbabilitiesRounded_frame rnd h).1
  rw [ComputeCumulativePTransitionRounded_table rnd _ cur j (by rw [e]; exact hcur)
    (by rw [e]; exact hj), (ComputeStateProbabilitiesRounded_frame rnd h).2.2.2.2.1]

/-! ## The rounding of type `double` -/

theorem bitsBelow_spec : ∀ (fuel n : Nat), n ≤ fuel → 1 ≤ n →
    2 ^ bitsBelow fuel n ≤ n ∧ n < 2 ^ (bitsBelow fuel n + 1) := by
  intro fuel
  induction fuel with
  | zero => intro n h0 h1; omega
  | succ fuel ih =>
    intro n hle h1
    rw [bitsBelow]
    by_cases h2 : n < 2
    · rw [if_pos h2]
      have : n = 1 := by omega
      subst this
      simp
    · rw [if_neg h2]
      obtain ⟨a, b⟩ := ih (n / 2) (by omega) (by omega)
      constructor
      · rw [pow_succ]
        omega
      · rw [pow_succ]
        omega

theorem floorLog2_spec (n : Nat) (h1 : 1 ≤ n) :
    2 ^ floorLog2 n ≤ n ∧ n < 2 ^ (floorLog2 n + 1) :=
  bitsBelow_spec n n (le_refl n) h1

theorem pow2_eq_zpow (e : Int) : pow2 e = (2 : ℚ) ^ e := by
  unfold pow2
  by_cases h : 0 ≤ e
  · rw [if_pos h]
    obtain ⟨n, rfl⟩ := Int.eq_ofNat_of_zero_le h
    simp
  · rw [if_neg h]
    obtain ⟨n, hn⟩ := Int.exists_eq_neg_ofNat (by omega : e ≤ 0)
    subst hn
    simp

theorem pow2_pos (e : Int) : 0 < pow2 e := by
  rw [pow2_eq_zpow]
  positivity


theorem abs_eq_natAbs_div (x : ℚ) : |x| = (x.num.natAbs : ℚ) / (x.den : ℚ) := by
  conv_lhs => rw [← Rat.num_div_den x]
  rw [abs_div, Nat.abs_cast, Nat.cast_natAbs, Int.cast_abs]

theorem binaryExponent_spec (x : ℚ) (hx : x ≠ 0) :
    pow2 (binaryExponent x) ≤ |x| ∧ |x| < pow2 (binaryExponent x + 1) := by
  have ha : 1 ≤ x.num.natAbs := by
    have : x.num ≠ 0 := Rat.num_ne_zero.mpr hx
    omega
  have hb : 1 ≤ x.den := x.den_pos
  obtain ⟨a1, a2⟩ := floorLog2_spec x.num.natAbs ha
  obtain ⟨b1, b2⟩ := floorLog2_spec x.den hb
  have a1q : (2 : ℚ) ^ floorLog2 x.num.natAbs ≤ (x.num.natAbs : ℚ) := by exact_mod_cast a1
  have a2q : (x.num.natAbs : ℚ) < (2 : ℚ) ^ (floorLog2 x.num.natAbs + 1) := by exact_mod_cast a2
  have b1q : (2 : ℚ) ^ floorLog2 x.den ≤ (x.den : ℚ) := by exact_mod_cast b1
  have b2q : (x.den : ℚ) < (2 : ℚ) ^ (floorLog2 x.den + 1) := by exact_mod_cast b2
  have hbq : (0 : ℚ) < (x.den : ℚ) := by exact_mod_cast hb
  have hpa : (0 : ℚ) < (2 : ℚ) ^ floorLog2 x.num.natAbs := by positivity
  have hpb : (0 : ℚ) < (2 : ℚ) ^ floorLog2 x.den := by positivity
  have two : (2 : ℚ) ≠ 0 := by norm_num
  have lower : pow2 ((floorLog2 x.num.natAbs : Int) - (floorLog2 x.den : Int) - 1) ≤ |x| := by
    rw [pow2_eq_zpow, abs_eq_natAbs_div, zpow_sub₀ two, zpow_sub₀ two, zpow_natCast,
      zpow_natCast, zpow_one, div_div, ← pow_succ]
    exact div_le_div₀ (by positivity) a1q hbq b2q.le
  have upper : |x| < pow2 ((floorLog2 x.num.natAbs : Int) - (floorLog2 x.den : Int) + 1) := by
    rw [pow2_eq_zpow, abs_eq_natAbs_div, zpow_add₀ two, zpow_sub₀ two, zpow_natCast,
      zpow_natCast, zpow_one, div_mul_eq_mul_div, ← pow_succ]
    exact div_lt_div₀ a2q b1q (by positivity) hpb
  unfold binaryExponent
  simp only []
  split_ifs with hc
  · exact ⟨hc, upper⟩
  · refine ⟨lower, ?_⟩
    rw [sub_add_cancel]
    exact lt_of_not_le hc

theorem roundHalfEven_near (y : ℚ) : |(roundHalfEven y : ℚ) - y| ≤ 1 / 2 := by
  have h1 := Int.floor_le y
  have h2 := Int.lt_floor_add_one y
  unfold roundHalfEven
  simp only []
  split_ifs with c1 c2 c3
  · rw [abs_le]; constructor <;> linarith
  · rw [abs_le]; push_cast; constructor <;> linarith
  · rw [abs_le]; constructor <;> linarith
  · rw [abs_le]; push_cast; constructor <;> linarith

theorem roundHalfEven_tie (y : ℚ) (hy : y - (Int.floor y : ℚ) = 1 / 2) :
    roundHalfEven y % 2 = 0 := by
  unfold roundHalfEven
  simp only []
  rw [if_neg (by rw [hy]; exact lt_irrefl _), if_neg (by rw [hy]; exact lt_irrefl _)]
  split_ifs with c
  · exact c
  · omega

/-- The result of `roundDouble` on a non-zero `x` is a multiple of the spacing
`2 ^ q` of the values of type `double` around `x`, where `q` is `e - 52` for the
binary exponent `e` of `x` (`-1074` below the normal range), and it is within
half that spacing of `x`. -/
theorem roundDouble_nearest (x : ℚ) (hx : x ≠ 0) :
    ∃ m : Int, roundDouble x = (m : ℚ) * pow2 (max (binaryExponent x - 52) (-1074)) ∧
      |roundDouble x - x| ≤ pow2 (max (binaryExponent x - 52) (-1074)) / 2 := by
  have hp := pow2_pos (max (binaryExponent x - 52) (-1074))
  refine ⟨roundHalfEven (x / pow2 (max (binaryExponent x - 52) (-1074))), ?_, ?_⟩
  · unfold roundDouble
    rw [if_neg hx]
  · have h := roundHalfEven_near (x / pow2 (max (binaryExponent x - 52) (-1074)))
    have e : roundDouble x - x
        = ((roundHalfEven (x / pow2 (max (binaryExponent x - 52) (-1074))) : ℚ)
            - x / pow2 (max (binaryExponent x - 52) (-1074)))
          * pow2 (max (binaryExponent x - 52) (-1074)) := by
      unfold roundDouble
      rw [if_neg hx]
      field_simp
    rw [e, abs_mul, abs_of_pos hp]
    calc _ ≤ 1 / 2 * pow2 (max (binaryExponent x - 52) (-1074)) :=
          mul_le_mul_of_nonneg_right h hp.le
      _ = _ := by ring

theorem WF_RandomlyInitializeRounded (rnd : ℚ → ℚ) (ops : DistributionOps D) (h : HMM D)
    (hwf : WF h) : WF (RandomlyInitializeRounded rnd ops h) := by
  rw [RandomlyInitializeRounded_eq]
  exact ⟨hwf.1, hwf.2, hwf.3, hwf.4, hwf.5, hwf.6, hwf.7, hwf.8, hwf.9⟩

/-! ## Double arithmetic on concrete values -/

theorem roundDouble_tenth : roundDouble (1 / 10) = 3602879701896397 / 2 ^ 55 := by decide!

theorem roundDouble_tenth_plus_fifth :
    roundDouble (roundDouble (1 / 10) + roundDouble (1 / 5)) = 5404319552844596 / 2 ^ 54 := by
  decide!

theorem roundDouble_uniform154 : roundDouble (1 / 154) = 7486503276667838 / 2 ^ 60 := by
  decide!

theorem roundDouble_third : roundDouble (1 / 3) = 6004799503160661 / 2 ^ 54 := by decide!

theorem roundDouble_ties :
    roundDouble (1 + 1 / 2 ^ 53) = 1 ∧ roundDouble (1 + 3 / 2 ^ 53) = 1 + 1 / 2 ^ 51 ∧
      roundDouble (1 + 1 / 2 ^ 52) = 1 + 1 / 2 ^ 52 := by
  decide!

theorem roundedPrefix_congr (rnd : ℚ → ℚ) (f g : Nat → ℚ) (m : Nat)
    (hfg : ∀ k, k < m → f k = g k) : roundedPrefix rnd f m = roundedPrefix rnd g m := by
  induction m with
  | zero => rfl
  | succ k ih =>
    rw [roundedPrefix, roundedPrefix, ih (fun x hx => hfg x (by omega)), hfg k (by omega)]

theorem uniform154_prefix_short : ∀ j : Nat, j < 154 →
    roundedPrefix roundDouble (fun _ => roundDouble (1 / 154)) (j + 1) < largestDraw := by
  decide!

theorem uniform154_prefix_last :
    roundedPrefix roundDouble (fun _ => roundDouble (1 / 154)) 154 = 1 - 36 / 2 ^ 53 := by
  decide!

theorem tail_first : roundDouble (0 + tailEntry 0) = 1 - 1 / 2 ^ 47 := by decide!

theorem tail_absorbed : roundDouble (1 - 1 / 2 ^ 47 + 1 / 2 ^ 55) = 1 - 1 / 2 ^ 47 := by
  decide!

theorem tail_prefix (j : Nat) : roundedPrefix roundDouble tailEntry (j + 1) = 1 - 1 / 2 ^ 47 := by
  induction j with
  | zero => exact tail_first
  | succ k ih =>
    rw [roundedPrefix, ih]
    simp only [tailEntry, if_neg (Nat.succ_ne_zero k)]
    exact tail_absorbed

/-! ## The models in double arithmetic -/

theorem uniformDoubleBase_eq :
    uniformDoubleBase
      = afterRandomlyInitialize unitOps (Init unitOps 154 1 1) (roundDouble (1 / 154)) 154 := by
  unfold uniformDoubleBase
  rw [RandomlyInitializeRounded_eq]
  have e : ((Init unitOps 154 1 1).n_states_ : ℚ) = 154 := by
    simp [Init]
  rw [e]
  rfl

theorem uniformDoubleBase_states : uniformDoubleBase.n_states_ = 154 := by
  rw [uniformDoubleBase_eq]
  rfl

theorem uniformDoubleBase_WF : WF uniformDoubleBase := by
  rw [uniformDoubleBase_eq]
  exact ⟨rfl, rfl, rfl, rfl, rfl, rfl, rfl, rfl, rfl⟩

theorem uniformDoubleBase_transition (i k : Nat) (hi : i < 154) (hk : k < 154) :
    uniformDoubleBase.p_transition_.get i k = roundDouble (1 / 154) := by
  rw [uniformDoubleBase_eq]
  simp only [afterRandomlyInitialize, Matrix.get]
  rw [if_pos ⟨hi, hk⟩]

theorem uniformDoubleBase_rows (i : Nat) (hi : i < 154) :
    ∑ j in Finset.range 154, uniformDoubleBase.p_transition_.get i j = 1 + 19 / 2 ^ 58 := by
  rw [Finset.sum_congr rfl (fun j hj =>
    uniformDoubleBase_transition i j hi (Finset.mem_range.mp hj))]
  rw [Finset.sum_const, Finset.card_range, roundDouble_uniform154]
  norm_num

theorem uniformDouble_entry (j : Nat) (hj : j < 154) :
    uniformDouble.cumulative_p_transition_.get j 0
      = roundedPrefix roundDouble (fun _ => roundDouble (1 / 154)) (j + 1) := by
  have hn : uniformDoubleBase.n_states_.toNat = 154 := by
    rw [uniformDoubleBase_eq]; rfl
  unfold uniformDouble
  rw [preparedRounded_table roundDouble uniformDoubleBase 0 j (by omega) (by omega)]
  exact roundedPrefix_congr _ _ _ _
    (fun k hk => uniformDoubleBase_transition 0 k (by omega) (by omega))

theorem uniformDouble_WF : WF uniformDouble ∧ uniformDouble.n_states_ = 154 := by
  obtain ⟨h1, h2, -⟩ := preparedRounded_WF roundDouble uniformDoubleBase uniformDoubleBase_WF
  refine ⟨h1, h2.trans ?_⟩
  rw [uniformDoubleBase_eq]
  rfl

theorem tailModel_WF : WF tailModel :=
  ⟨rfl, rfl, rfl, rfl, rfl, rfl, rfl, rfl, rfl⟩

theorem tailEntry_nonneg (k : Nat) : 0 ≤ tailEntry k := by
  unfold tailEntry
  split_ifs <;> norm_num

theorem tailEntry_sum : ∑ k in Finset.range 257, tailEntry k = 1 := by
  rw [Finset.sum_range_succ']
  simp only [tailEntry, if_neg (Nat.succ_ne_zero _), if_pos]
  rw [Finset.sum_const, Finset.card_range]
  norm_num

theorem tailDouble_entry (j : Nat) (hj : j < 257) :
    tailDouble.cumulative_p_transition_.get j 0 = 1 - 1 / 2 ^ 47 := by
  unfold tailDouble
  rw [preparedRounded_table roundDouble tailModel 0 j (by decide) hj]
  exact tail_prefix j

theorem tailDouble_WF : WF tailDouble ∧ tailDouble.n_states_ = 257 := by
  obtain ⟨h1, h2, -⟩ := preparedRounded_WF roundDouble tailModel tailModel_WF
  exact ⟨h1, h2⟩

/-! ## Draws on a prepared model, in exact and in double arithmetic -/

theorem DrawState_up_to_final (H : HMM D) (hwf : WF H) (hn : 1 ≤ H.n_states_) (u : ℚ)
    (t : Nat) (ht : (t : Int) < H.T_)
    (hlast : u ≤ H.state_cumulative_probabilities_.get (H.n_states_.toNat - 1) t) :
    ∃ i : Nat, DrawState H u (t : Int) = some i ∧ (i : Int) < H.n_states_ ∧
      ∀ r ∈ DrawStateReads H u (t : Int), (r : Int) < H.n_states_ := by
  have hr := hwf.cum_rows
  have hc := hwf.cum_cols
  have e : H.state_cumulative_probabilities_.n_rows - 1 = H.n_states_.toNat - 1 := by omega
  obtain ⟨i, h1, h2, h3⟩ := scan_in_range H.state_cumulative_probabilities_
    u t (by omega) (by omega) (by rw [e]; exact hlast)
  exact ⟨i, h1, by omega, fun r hr' => by have := h3 r hr'; omega⟩

theorem DrawStateGivenLastState_up_to_final (H : HMM D) (hwf : WF H) (hn : 1 ≤ H.n_states_)
    (u : ℚ) (cur : Nat) (hcur : (cur : Int) < H.n_states_)
    (hlast : u ≤ H.cumulative_p_transition_.get (H.n_states_.toNat - 1) cur) :
    ∃ j : Nat, DrawStateGivenLastState H u (cur : Int) = some j ∧ (j : Int) < H.n_states_ ∧
      ∀ r ∈ DrawStateGivenLastStateReads H u (cur : Int), (r : Int) < H.n_states_ := by
  have hr := hwf.ctrans_rows
  have hc := hwf.ctrans_cols
  have e : H.cumulative_p_transition_.n_rows - 1 = H.n_states_.toNat - 1 := by omega
  obtain ⟨j, h1, h2, h3⟩ := scan_in_range H.cumulative_p_transition_
    u cur (by omega) (by omega) (by rw [e]; exact hlast)
  exact ⟨j, h1, by omega, fun r hr' => by have := h3 r hr'; omega⟩

theorem largestDraw_le_one : largestDraw ≤ 1 := by
  unfold largestDraw
  norm_num

/-- C19 (counterexample): the claim fails in the arithmetic of the code, on a
model that meets its hypotheses to the letter and on the model the class
builds itself.

* `tailModel` has 257 states, non-negative entries of type `double`, and an
  initial distribution and transition rows that sum to one exactly.  After
  `ComputeStateProbabilities` and `ComputeCumulativePTransition` in double
  arithmetic every entry of column `0` of the cumulative transition table is
  `1 - 2 ^ (-47)`, the final one included: each addition of `2 ^ (-55)` is
  rounded away.  The draw `u = 1 - 2 ^ (-48) ≤ 1` exceeds them all, and
  `DrawStateGivenLastState(0)` reads rows `0` to `257`, the last of which is
  past the last row, and ends there without a state.
* `uniformDouble` is `Init(154, 1, 1)`, `RandomlyInitialize` and the two
  computations, in double arithmetic.  Its transition rows sum to
  `1 + 19 * 2 ^ (-58)`; the final entry of column `0` of the cumulative
  transition table is `1 - 36 * 2 ^ (-53)`, and the same draw reads rows `0` to
  `154` and ends without a state. -/
theorem C19_counterexample :
    (WF tailModel ∧ (1 : Int) ≤ tailModel.n_states_ ∧
      (∀ i : Nat, (i : Int) < tailModel.n_states_ → 0 ≤ tailModel.p_initial_.get i) ∧
      (∀ i k : Nat, (i : Int) < tailModel.n_states_ → (k : Int) < tailModel.n_states_ →
        0 ≤ tailModel.p_transition_.get i k) ∧
      ∑ i in Finset.range tailModel.n_states_.toNat, tailModel.p_initial_.get i = 1 ∧
      (∀ i : Nat, (i : Int) < tailModel.n_states_ →
        ∑ j in Finset.range tailModel.n_states_.toNat, tailModel.p_transition_.get i j = 1)) ∧
    largestDraw ≤ 1 ∧
    (tailDouble.cumulative_p_transition_.get 256 0 = 1 - 1 / 2 ^ 47 ∧
      DrawStateGivenLastState tailDouble largestDraw 0 = none ∧
      DrawStateGivenLastStateReads tailDouble largestDraw 0 = List.range 258) ∧
    (WF uniformDoubleBase ∧ uniformDoubleBase.n_states_ = 154 ∧
      (∀ i : Nat, i < 154 →
        ∑ j in Finset.range 154, uniformDoubleBase.p_transition_.get i j = 1 + 19 / 2 ^ 58) ∧
      uniformDouble.cumulative_p_transition_.get 153 0 = 1 - 36 / 2 ^ 53 ∧
      DrawStateGivenLastState uniformDouble largestDraw 0 = none ∧
      DrawStateGivenLastStateReads uniformDouble largestDraw 0 = List.range 155) := by
  have ht := DrawStateGivenLastState_exhausted tailDouble tailDouble_WF.1 largestDraw 0
    (by rw [tailDouble_WF.2]; decide)
    (fun j hj => by
      rw [tailDouble_WF.2] at hj
      rw [tailDouble_entry j (by omega)]
      unfold largestDraw
      norm_num)
  have hu := DrawStateGivenLastState_exhausted uniformDouble uniformDouble_WF.1 largestDraw 0
    (by rw [uniformDouble_WF.2]; decide)
    (fun j hj => by
      rw [uniformDouble_WF.2] at hj
      rw [uniformDouble_entry j (by omega)]
      exact uniform154_prefix_short j (by omega))
  rw [tailDouble_WF.2] at ht
  rw [uniformDouble_WF.2] at hu
  refine ⟨⟨tailModel_WF, by decide, fun i _ => tailEntry_nonneg i,
    fun i k _ _ => tailEntry_nonneg k, tailEntry_sum, fun i _ => tailEntry_sum⟩,
    largestDraw_le_one, ⟨tailDouble_entry 256 (by decide), ht.1, ht.2⟩,
    ⟨uniformDoubleBase_WF, uniformDoubleBase_states, uniformDoubleBase_rows, ?_, hu.1, hu.2⟩⟩
  rw [uniformDouble_entry 153 (by decide)]
  exact uniform154_prefix_last

/-- C19 (amended): on a model with at least one state whose tables have the
sizes `Init` allocates, let `H` be the model after `ComputeStateProbabilities`
and `ComputeCumulativePTransition`, every arithmetic result rounded by `rnd`
(any rounding: none, or the one of type `double`).  For every `t < T_`, every
state `cur` and every `u` that is at most the final entry of the cumulative
column read, `DrawState(t)` and `DrawStateGivenLastState(cur)` return a state
below `n_states_`, and every row their scans read is below `n_states_`.  When
the arithmetic is exact (`rnd` changes no value) and `p_initial_` and
`p_transition_` are non-negative with `p_initial_` and every transition row
summing to one, every cumulative column is non-decreasing and ends in exactly
one, so that every `u ≤ 1` is such a `u` and the draws are as above for every
`u ≤ 1`. -/
theorem C19_draws_up_to_final_entry (rnd : ℚ → ℚ) (h H : HMM D) (hwf : WF h)
    (hn : 1 ≤ h.n_states_)
    (hH : H = ComputeCumulativePTransitionRounded rnd
      (ComputeStateProbabilitiesRounded rnd h)) :
    (∀ (u : ℚ) (t : Nat), (t : Int) < h.T_ →
      u ≤ H.state_cumulative_probabilities_.get (h.n_states_.toNat - 1) t →
      ∃ i : Nat, DrawState H u (t : Int) = some i ∧ (i : Int) < h.n_states_ ∧
        ∀ r ∈ DrawStateReads H u (t : Int), (r : Int) < h.n_states_) ∧
    (∀ (u : ℚ) (cur : Nat), (cur : Int) < h.n_states_ →
      u ≤ H.cumulative_p_transition_.get (h.n_states_.toNat - 1) cur →
      ∃ j : Nat, DrawStateGivenLastState H u (cur : Int) = some j ∧ (j : Int) < h.n_states_ ∧
        ∀ r ∈ DrawStateGivenLastStateReads H u (cur : Int), (r : Int) < h.n_states_) ∧
    ((∀ x : ℚ, rnd x = x) →
      (∀ i : Nat, (i : Int) < h.n_states_ → 0 ≤ h.p_initial_.get i) →
      (∀ i k : Nat, (i : Int) < h.n_states_ → (k : Int) < h.n_states_ →
        0 ≤ h.p_transition_.get i k) →
      ∑ i in Finset.range h.n_states_.toNat, h.p_initial_.get i = 1 →
      (∀ i : Nat, (i : Int) < h.n_states_ →
        ∑ j in Finset.range h.n_states_.toNat, h.p_transition_.get i j = 1) →
      (∀ t : Nat, (t : Int) < h.T_ →
        (∀ i j : Nat, i ≤ j → (j : Int) < h.n_states_ →
          H.state_cumulative_probabilities_.get i t
            ≤ H.state_cumulative_probabilities_.get j t) ∧
        H.state_cumulative_probabilities_.get (h.n_states_.toNat - 1) t = 1) ∧
      (∀ cur : Nat, (cur : Int) < h.n_states_ →
        (∀ i j : Nat, i ≤ j → (j : Int) < h.n_states_ →
          H.cumulative_p_transition_.get i cur ≤ H.cumulative_p_transition_.get j cur) ∧
        H.cumulative_p_transition_.get (h.n_states_.toNat - 1) cur = 1) ∧
      (∀ (u : ℚ) (t : Nat), u ≤ 1 → (t : Int) < h.T_ →
        ∃ i : Nat, DrawState H u (t : Int) = some i ∧ (i : Int) < h.n_states_ ∧
          ∀ r ∈ DrawStateReads H u (t : Int), (r : Int) < h.n_states_) ∧
      (∀ (u : ℚ) (cur : Nat), u ≤ 1 → (cur : Int) < h.n_states_ →
        ∃ j : Nat, DrawStateGivenLastState H u (cur : Int) = some j ∧
          (j : Int) < h.n_states_ ∧
          ∀ r ∈ DrawStateGivenLastStateReads H u (cur : Int), (r : Int) < h.n_states_)) := by
  subst hH
  obtain ⟨hwf', en, eT⟩ := preparedRounded_WF rnd h hwf
  refine ⟨fun u t ht hlast => ?_, fun u cur hcur hlast => ?_,
    fun hr hinit_nn htr_nn hinit hrow => ?_⟩
  · have := DrawState_up_to_final _ hwf' (by rw [en]; exact hn) u t (by rw [eT]; exact ht)
      (by rw [en]; exact hlast)
    rw [en] at this
    exact this
  · have := DrawStateGivenLastState_up_to_final _ hwf' (by rw [en]; exact hn) u cur
      (by rw [en]; exact hcur) (by rw [en]; exact hlast)
    rw [en] at this
    exact this
  · have e : rnd = id := funext hr
    subst e
    rw [ComputeStateProbabilitiesRounded_id, ComputeCumulativePTransitionRounded_id]
    refine ⟨fun t ht => prepared_marginal_column h hn hinit_nn htr_nn hinit hrow t ht,
      fun cur hcur => prepared_transition_column h hn htr_nn hrow cur hcur,
      fun u t hu ht => prepared_DrawState h hwf hn u t ht ?_,
      fun u cur hu hcur => prepared_DrawStateGivenLastState h hwf hn u cur hcur ?_⟩
    · rw [(prepared_marginal_column h hn hinit_nn htr_nn hinit hrow t ht).2]
      exact hu
    · rw [(prepared_transition_column h hn htr_nn hrow cur hcur).2]
      exact hu

theorem uniformDouble_final :
    (1 - 36 / 2 ^ 53 : ℚ) ≤ uniformDouble.cumulative_p_transition_.get
      (uniformDoubleBase.n_states_.toNat - 1) 0 := by
  rw [uniformDoubleBase_states, uniformDouble_entry _ (by decide)]
  exact le_of_eq uniform154_prefix_last.symm

/-- C19 (amended) on two models.  In double arithmetic, on the uniform model of
154 states, the draw `u = 1 - 36 * 2 ^ (-53)`, the final entry of column `0`,
returns a state below `154` from state `0` without reading a row past the
last.  In exact arithmetic, on `chainModel`, whose parameters are valid, column
`2` of the marginal cumulative table and column `1` of the transition
cumulative table end in one, and the draws with `u = 1/2` at `t = 2` and from
state `1` return a state below `2` without reading a row past the last. -/
theorem C19_draws_up_to_final_entry_witness :
    WF uniformDoubleBase ∧ (1 : Int) ≤ uniformDoubleBase.n_states_ ∧
    (1 - 36 / 2 ^ 53 : ℚ) ≤ uniformDouble.cumulative_p_transition_.get
      (uniformDoubleBase.n_states_.toNat - 1) 0 ∧
    (∃ j : Nat, DrawStateGivenLastState uniformDouble (1 - 36 / 2 ^ 53) ((0 : Nat) : Int)
        = some j ∧ (j : Int) < uniformDoubleBase.n_states_ ∧
      ∀ r ∈ DrawStateGivenLastStateReads uniformDouble (1 - 36 / 2 ^ 53) ((0 : Nat) : Int),
        (r : Int) < uniformDoubleBase.n_states_) ∧
    WF chainModel ∧ (1 : Int) ≤ chainModel.n_states_ ∧
    (ComputeCumulativePTransition
        (ComputeStateProbabilities chainModel)).state_cumulative_probabilities_.get
      (chainModel.n_states_.toNat - 1) 2 = 1 ∧
    (ComputeCumulativePTransition
        (ComputeStateProbabilities chainModel)).cumulative_p_transition_.get
      (chainModel.n_states_.toNat - 1) 1 = 1 ∧
    (∃ i : Nat,
      DrawState (ComputeCumulativePTransition (ComputeStateProbabilities chainModel)) (1 / 2)
        ((2 : Nat) : Int) = some i ∧ (i : Int) < chainModel.n_states_ ∧
      ∀ r ∈ DrawStateReads (ComputeCumulativePTransition (ComputeStateProbabilities chainModel))
        (1 / 2) ((2 : Nat) : Int), (r : Int) < chainModel.n_states_) ∧
    (∃ j : Nat,
      DrawStateGivenLastState
        (ComputeCumulativePTransition (ComputeStateProbabilities chainModel)) (1 / 2)
        ((1 : Nat) : Int) = some j ∧ (j : Int) < chainModel.n_states_ ∧
      ∀ r ∈ DrawStateGivenLastStateReads
        (ComputeCumulativePTransition (ComputeStateProbabilities chainModel)) (1 / 2)
        ((1 : Nat) : Int), (r : Int) < chainModel.n_states_) :=
  ⟨uniformDoubleBase_WF, by rw [uniformDoubleBase_states]; decide, uniformDouble_final,
    (C19_draws_up_to_final_entry roundDouble uniformDoubleBase uniformDouble
      uniformDoubleBase_WF (by rw [uniformDoubleBase_states]; decide) rfl).2.1
        (1 - 36 / 2 ^ 53) 0 (by rw [uniformDoubleBase_states]; decide) uniformDouble_final,
    chainModel_WF, by decide,
    (((C19_draws_up_to_final_entry id chainModel _ chainModel_WF (by decide) rfl).2.2
      (fun _ => rfl) chainModel_initial_nonneg chainModel_transition_nonneg
      chainModel_initial_sum chainModel_rows).1 2 (by decide)).2,
    (((C19_draws_up_to_final_entry id chainModel _ chainModel_WF (by decide) rfl).2.2
      (fun _ => rfl) chainModel_initial_nonneg chainModel_transition_nonneg
      chainModel_initial_sum chainModel_rows).2.1 1 (by decide)).2,
    ((C19_draws_up_to_final_entry id chainModel _ chainModel_WF (by decide) rfl).2.2
      (fun _ => rfl) chainModel_initial_nonneg chainModel_transition_nonneg
      chainModel_initial_sum chainModel_rows).2.2.1 (1 / 2) 2 (by norm_num) (by decide),
    ((C19_draws_up_to_final_entry id chainModel _ chainModel_WF (by decide) rfl).2.2
      (fun _ => rfl) chainModel_initial_nonneg chainModel_transition_nonneg
      chainModel_initial_sum chainModel_rows).2.2.2 (1 / 2) 1 (by norm_num) (by decide)⟩

end HSHMM
